import Mathlib

/-!
# Verification of dvid labelvol merge/split and labelblk sync propagation

Shallow embedding of `datatype/labelvol/merge_split.go` (MergeLabels,
SplitLabels, diffRLEs) and `datatype/labelblk/sync.go` (syncMerge,
mergeBlock) together with proofs of the specification claims.

Conventions:
* Labels and block coordinates are `Nat` (Go `uint64` label ids and
  `IZYXString` block keys; only identity/ordering of block keys matters here).
* A run-length span (`dvid.RLE`) is a start offset plus a length along the
  scan axis; coordinates are `Int` (the spec's RunLengthSet is a set of 1-D
  spans; Go stores int32 values, whose overflow is irrelevant at the block
  sizes involved, so we use unbounded integers).
* Fallible Go functions become `Except`/`Option`-returning Lean functions;
  storage failures are injected through explicit environment records, one
  flag per storage call site of the Go code.
-/

set_option maxHeartbeats 1000000

namespace DvidProof

/-- One run-length span: voxels `start, start+1, …, start+len-1`.
Embeds `dvid.RLE` (start point + length) restricted to the scan axis, as in
the spec's RunLengthSet data model. -/
structure RLE where
  start : Int
  len : Int
deriving DecidableEq, Repr

/-- Modelled from the spec: `dvid.RLE.Intersects` is not under `src/`.
Two spans intersect when they share at least one voxel. -/
def RLE.intersects (a b : RLE) : Bool :=
  decide (a.start < b.start + b.len) && decide (b.start < a.start + a.len)

/-- Modelled from the spec: `dvid.RLE.Excise` is not under `src/`.  Excising
split span `s` from original span `o` returns `none` when they do not
intersect, otherwise the 0, 1, or 2 remaining fragments (left fragment when
`s` starts strictly inside `o`, right fragment when `s` ends strictly before
`o` does). -/
def RLE.excise (o s : RLE) : Option (List RLE) :=
  if o.intersects s then
    some ((if o.start < s.start then [⟨o.start, s.start - o.start⟩] else []) ++
          (if s.start + s.len < o.start + o.len then
            [⟨s.start + s.len, o.start + o.len - (s.start + s.len)⟩] else []))
  else
    none

/-- Errors reported by `diffRLEs` (the Go code formats these as strings). -/
inductive DiffErr
  | noSplits
  | notContained (s : RLE)
  | badExcise
deriving DecidableEq, Repr

/-- Membership of a voxel offset in one span. -/
def memR (x : Int) (r : RLE) : Prop := r.start ≤ x ∧ x < r.start + r.len

instance (x : Int) (r : RLE) : Decidable (memR x r) := by
  unfold memR; infer_instance

/-- Membership of a voxel offset in a list of spans (the set of voxel
offsets denoted by a RunLengthSet). -/
def memL (x : Int) (l : List RLE) : Prop := ∃ r ∈ l, memR x r

instance (x : Int) (l : List RLE) : Decidable (memL x l) := by
  unfold memL; infer_instance

/-- Strict span order: `a` ends strictly before `b` starts (no overlap and
no touching). -/
def spanLt (a b : RLE) : Prop := a.start + a.len < b.start

instance (a b : RLE) : Decidable (spanLt a b) := by
  unfold spanLt; infer_instance

/-- Well-formed RunLengthSet per the spec's data model: spans have positive
length, are sorted by start, and no two spans overlap or touch. -/
def WF (l : List RLE) : Prop :=
  (∀ r ∈ l, 0 < r.len) ∧ l.Pairwise spanLt

instance (l : List RLE) : Decidable (WF l) := by
  unfold WF; infer_instance

/-- Insertion of a span into a start-sorted list (step of the sort that
models Go's `sort.Sort` on `dvid.RLEs`, whose order is by start point). -/
def insertRLE (r : RLE) : List RLE → List RLE
  | [] => [r]
  | x :: xs => if r.start ≤ x.start then r :: x :: xs else x :: insertRLE r xs

/-- Modelled from the spec: the `sort.Sort(… dvid.RLEs)` calls of `diffRLEs`
order spans by start. -/
def sortRLEs (l : List RLE) : List RLE := l.foldr insertRLE []

/-- The inner fast-forward loop of `diffRLEs` for one split span `s`.
The doubly-linked list `out` with cursor `e` is embedded as the zipper
`(done, rest)`: `done` holds the spans strictly before the cursor and
`rest` the cursor element and everything after it (`rest = []` is `e == nil`).
Mirrors merge_split.go lines 361-402 case by case. -/
def processSplit (s : RLE) : List RLE → List RLE → Except DiffErr (List RLE × List RLE)
  | _, [] => .error (.notContained s)
  | done, o :: rest =>
    match o.excise s with
    | none => processSplit s (done ++ [o]) rest
    | some [] =>
      match rest with
      | [] => .ok (done, [])
      | peek :: _ =>
        if s.intersects peek then processSplit s done rest else .ok (done, rest)
    | some [f] => .ok (done, f :: rest)
    | some [l, r] => .ok (done ++ [l], r :: rest)
    | some _ => .error .badExcise

/-- The outer loop of `diffRLEs` over all split spans, threading the zipper
state; the final modified RLE list is the whole sequence `done ++ rest`. -/
def diffLoop : List RLE → List RLE → List RLE → Except DiffErr (List RLE)
  | [], done, rest => .ok (done ++ rest)
  | s :: ss, done, rest =>
    match processSplit s done rest with
    | .error e => .error e
    | .ok (d, r) => diffLoop ss d r

/-- Embedding of `diffRLEs` (merge_split.go lines 330-421): copy and sort
both span lists, subtract the split spans from the originals, and report
whether the block was fully consumed (`dup`).  On `dup` the Go code leaves
`modified` nil; we return the empty list. -/
def diffRLEs (split orig : List RLE) : Except DiffErr (List RLE × Bool) :=
  if split.isEmpty then .error .noSplits
  else
    match diffLoop (sortRLEs split) [] (sortRLEs orig) with
    | .error e => .error e
    | .ok modified =>
      if modified.isEmpty then .ok ([], true) else .ok (modified, false)

example : diffRLEs [⟨2, 3⟩] [⟨0, 10⟩] = .ok ([⟨0, 2⟩, ⟨5, 5⟩], false) := rfl
example : diffRLEs [⟨0, 10⟩] [⟨0, 10⟩] = .ok ([], true) := rfl
example : diffRLEs [⟨3, 4⟩] [⟨0, 5⟩] = .ok ([⟨0, 3⟩], false) := rfl
example : diffRLEs [⟨20, 4⟩] [⟨0, 5⟩] = .error (.notContained ⟨20, 4⟩) := rfl
example : diffRLEs [] [⟨0, 5⟩] = .error .noSplits := rfl
example : diffRLEs [⟨0, 2⟩, ⟨4, 2⟩] [⟨0, 6⟩] = .ok ([⟨2, 2⟩], false) := rfl

/-! ## Basic facts about span membership and well-formedness -/

theorem memL_nil (x : Int) : ¬ memL x [] := by simp [memL]

theorem memL_cons {x : Int} {a : RLE} {l : List RLE} :
    memL x (a :: l) ↔ memR x a ∨ memL x l := by
  simp [memL]

theorem memL_append {x : Int} {l₁ l₂ : List RLE} :
    memL x (l₁ ++ l₂) ↔ memL x l₁ ∨ memL x l₂ := by
  simp [memL, List.mem_append, or_and_right, exists_or]

theorem wf_of_sublist {l₁ l₂ : List RLE} (h : l₁.Sublist l₂) (hw : WF l₂) : WF l₁ :=
  ⟨fun r hr => hw.1 r (h.subset hr), hw.2.sublist h⟩

/-- Decomposition of well-formedness around a distinguished middle span. -/
theorem wf_append_cons {done : List RLE} {o : RLE} {t : List RLE}
    (h : WF (done ++ o :: t)) :
    0 < o.len ∧ (∀ r ∈ done, spanLt r o) ∧ (∀ r ∈ t, spanLt o r) ∧
    WF (done ++ t) ∧ (∀ r ∈ done, 0 < r.len) ∧ (∀ r ∈ t, 0 < r.len) ∧
    done.Pairwise spanLt ∧ t.Pairwise spanLt ∧
    (∀ a ∈ done, ∀ b ∈ t, spanLt a b) := by
  obtain ⟨hpos, hpair⟩ := h
  obtain ⟨pd, pot, hcross⟩ := List.pairwise_append.mp hpair
  obtain ⟨hot, pt⟩ := List.pairwise_cons.mp pot
  refine ⟨hpos o (by simp), fun r hr => hcross r hr o (by simp),
    hot, ⟨?_, ?_⟩, fun r hr => hpos r (by simp [hr]),
    fun r hr => hpos r (by simp [hr]), pd, pt,
    fun a ha b hb => hcross a ha b (by simp [hb])⟩
  · intro r hr
    rcases List.mem_append.mp hr with h | h
    · exact hpos r (by simp [h])
    · exact hpos r (by simp [h])
  · exact List.pairwise_append.mpr
      ⟨pd, pt, fun a ha b hb => hcross a ha b (by simp [hb])⟩

/-- Reassembly of well-formedness from the three components of a sandwich
`done ++ mid ++ t`. -/
theorem wf_sandwich {done mid t : List RLE}
    (hpd : ∀ r ∈ done, 0 < r.len) (hpm : ∀ r ∈ mid, 0 < r.len)
    (hpt : ∀ r ∈ t, 0 < r.len)
    (ppd : done.Pairwise spanLt) (ppm : mid.Pairwise spanLt)
    (ppt : t.Pairwise spanLt)
    (hdm : ∀ a ∈ done, ∀ b ∈ mid, spanLt a b)
    (hmt : ∀ a ∈ mid, ∀ b ∈ t, spanLt a b)
    (hdt : ∀ a ∈ done, ∀ b ∈ t, spanLt a b) :
    WF (done ++ mid ++ t) := by
  constructor
  · intro r hr
    rcases List.mem_append.mp hr with h | h
    · rcases List.mem_append.mp h with h' | h'
      · exact hpd r h'
      · exact hpm r h'
    · exact hpt r h
  · refine List.pairwise_append.mpr
      ⟨List.pairwise_append.mpr ⟨ppd, ppm, hdm⟩, ppt, ?_⟩
    intro a ha b hb
    rcases List.mem_append.mp ha with h | h
    · exact hdt a h b hb
    · exact hmt a h b hb

theorem memR_iff {x : Int} {r : RLE} :
    memR x r ↔ r.start ≤ x ∧ x < r.start + r.len := Iff.rfl

theorem memL_iff {x : Int} {l : List RLE} :
    memL x l ↔ ∃ r ∈ l, memR x r := Iff.rfl

/-- Replacing spans `mid` by spans `mid'` whose voxels are exactly those of
`mid` outside `s`, with siblings untouched by `s`, realizes pointwise
subtraction of `s`. -/
theorem memL_sandwich_iff {x : Int} {done mid mid' t : List RLE} {s : RLE}
    (hd : memL x done → ¬ memR x s)
    (ht : memL x t → ¬ memR x s)
    (hmid : memL x mid ↔ (memL x mid' ∨ memR x s))
    (hmid' : memL x mid' → ¬ memR x s) :
    memL x (done ++ mid' ++ t) ↔ memL x (done ++ mid ++ t) ∧ ¬ memR x s := by
  simp only [memL_append]
  constructor
  · rintro ((hA | hB) | hC)
    · exact ⟨Or.inl (Or.inl hA), hd hA⟩
    · exact ⟨Or.inl (Or.inr (hmid.mpr (Or.inl hB))), hmid' hB⟩
    · exact ⟨Or.inr hC, ht hC⟩
  · rintro ⟨(hA | hB) | hC, hns⟩
    · exact Or.inl (Or.inl hA)
    · rcases hmid.mp hB with h | h
      · exact Or.inl (Or.inr h)
      · exact absurd h hns
    · exact Or.inr hC

/-! ## Correctness of the diff engine's inner loop -/

/-- Correctness of the fast-forward loop of `diffRLEs` for one split span
`s`: under the subset precondition the loop succeeds, removes exactly the
voxels of `s` from the zipper while preserving well-formedness, and every
span it leaves behind the cursor ends strictly before the end of `s`. -/
theorem processSplit_spec (s : RLE) (hs : 0 < s.len) (rest : List RLE) :
    ∀ done : List RLE, WF (done ++ rest) →
    (∀ x, memR x s → memL x rest) →
    (∀ x, memL x done → x < s.start) →
    ∃ d r, processSplit s done rest = .ok (d, r) ∧ WF (d ++ r) ∧
      (∀ x, memL x (d ++ r) ↔ memL x (done ++ rest) ∧ ¬ memR x s) ∧
      (∀ x, memL x d → x < s.start + s.len) := by
  induction rest with
  | nil =>
    intro done _ hsub _
    exact absurd (hsub s.start ⟨le_refl _, by omega⟩) (memL_nil _)
  | cons o t ih =>
    intro done hwf hsub hdone
    obtain ⟨hpo, hdo, hot, hwf_dt, hpd, hpt, ppd, ppt, hdt⟩ := wf_append_cons hwf
    cases hI : o.intersects s with
    | false =>
      have hni : ¬(o.start < s.start + s.len ∧ s.start < o.start + o.len) := by
        rintro ⟨h1, h2⟩
        simp [RLE.intersects, h1, h2] at hI
      have hexc : o.excise s = none := by
        simp [RLE.excise, hI]
      have hsub' : ∀ x, memR x s → memL x t := by
        intro x hx
        rcases memL_cons.mp (hsub x hx) with hxo | hxt
        · rw [memR_iff] at hx hxo
          exact absurd ⟨by omega, by omega⟩ hni
        · exact hxt
      have hos : o.start + o.len < s.start := by
        obtain ⟨rt, hrt, hm⟩ := memL_iff.mp (hsub' s.start ⟨le_refl _, by omega⟩)
        have h7 := hot rt hrt
        rw [memR_iff] at hm
        unfold spanLt at h7
        omega
      have hdone' : ∀ x, memL x (done ++ [o]) → x < s.start := by
        intro x hx
        rcases memL_append.mp hx with hxd | hxo
        · exact hdone x hxd
        · rcases memL_cons.mp hxo with hxo | hF
          · rw [memR_iff] at hxo; omega
          · exact absurd hF (memL_nil x)
      have hwf' : WF (done ++ [o] ++ t) := by
        rw [← List.append_cons]; exact hwf
      obtain ⟨d, r, heq, hwfdr, hiff, hpost⟩ := ih (done ++ [o]) hwf' hsub' hdone'
      refine ⟨d, r, ?_, hwfdr, ?_, hpost⟩
      · simp only [processSplit, hexc]
        exact heq
      · intro x
        rw [hiff x, ← List.append_cons]
    | true =>
      have hint : o.start < s.start + s.len ∧ s.start < o.start + o.len := by
        simpa [RLE.intersects] using hI
      have hcs : o.start ≤ s.start := by
        by_contra hlt
        push_neg at hlt
        rcases memL_cons.mp (hsub s.start ⟨le_refl _, by omega⟩) with hxo | hxt
        · rw [memR_iff] at hxo; omega
        · obtain ⟨rt, hrt, hm⟩ := memL_iff.mp hxt
          have h7 := hot rt hrt
          rw [memR_iff] at hm
          unfold spanLt at h7
          omega
      have hce : s.start + s.len ≤ o.start + o.len := by
        by_contra hlt
        push_neg at hlt
        rcases memL_cons.mp (hsub (o.start + o.len) ⟨by omega, by omega⟩) with hxo | hxt
        · rw [memR_iff] at hxo; omega
        · obtain ⟨rt, hrt, hm⟩ := memL_iff.mp hxt
          have h7 := hot rt hrt
          rw [memR_iff] at hm
          unfold spanLt at h7
          omega
      have hd_ns : ∀ x, memL x done → ¬ memR x s := by
        intro x hx hmem
        have h1 := hdone x hx
        rw [memR_iff] at hmem
        omega
      have ht_ns : ∀ x, memL x t → ¬ memR x s := by
        intro x hx hmem
        obtain ⟨rt, hrt, hm⟩ := memL_iff.mp hx
        have h7 := hot rt hrt
        rw [memR_iff] at hmem hm
        unfold spanLt at h7
        omega
      by_cases hc1 : o.start < s.start <;> by_cases hc2 : s.start + s.len < o.start + o.len
      · -- two fragments: split strictly interior to the original span
        have hexc : o.excise s =
            some [⟨o.start, s.start - o.start⟩,
                  ⟨s.start + s.len, o.start + o.len - (s.start + s.len)⟩] := by
          simp [RLE.excise, hI, hc1, hc2]
        have heq : processSplit s done (o :: t) =
            .ok (done ++ [⟨o.start, s.start - o.start⟩],
                 (⟨s.start + s.len, o.start + o.len - (s.start + s.len)⟩ : RLE) :: t) := by
          simp only [processSplit, hexc]
        refine ⟨_, _, heq, ?_, ?_, ?_⟩
        · have hres := @wf_sandwich done
            [⟨o.start, s.start - o.start⟩,
             ⟨s.start + s.len, o.start + o.len - (s.start + s.len)⟩] t
            hpd ?_ hpt ppd ?_ ppt ?_ ?_ hdt
          · simpa only [List.append_assoc, List.singleton_append, List.cons_append,
              List.nil_append] using hres
          · intro r hr
            rcases List.mem_cons.mp hr with h | h
            · subst h; simp; omega
            · rcases List.mem_cons.mp h with h | h
              · subst h; simp; omega
              · simp at h
          · refine List.pairwise_cons.mpr ⟨?_, List.pairwise_singleton _ _⟩
            intro b hb
            rcases List.mem_singleton.mp hb with rfl
            unfold spanLt; simp; omega
          · intro a ha b hb
            have h7 := hdo a ha
            unfold spanLt at h7 ⊢
            rcases List.mem_cons.mp hb with h | h
            · subst h; simp; omega
            · rcases List.mem_cons.mp h with h | h
              · subst h; simp; omega
              · simp at h
          · intro a ha b hb
            have h7 := hot b hb
            unfold spanLt at h7 ⊢
            rcases List.mem_cons.mp ha with h | h
            · subst h; simp; omega
            · rcases List.mem_cons.mp h with h | h
              · subst h; simp; omega
              · simp at h
        · intro x
          have hmid : memL x [o] ↔
              memL x [⟨o.start, s.start - o.start⟩,
                      ⟨s.start + s.len, o.start + o.len - (s.start + s.len)⟩] ∨ memR x s := by
            simp [memL, memR]
            omega
          have hmid' : memL x [⟨o.start, s.start - o.start⟩,
              ⟨s.start + s.len, o.start + o.len - (s.start + s.len)⟩] → ¬ memR x s := by
            simp [memL, memR]
            omega
          have hiff := @memL_sandwich_iff x done [o] _ t _
            (hd_ns x) (ht_ns x) hmid hmid'
          rw [← List.append_cons] at hiff
          have hshape : done ++ [⟨o.start, s.start - o.start⟩,
              ⟨s.start + s.len, o.start + o.len - (s.start + s.len)⟩] ++ t =
              (done ++ [(⟨o.start, s.start - o.start⟩ : RLE)]) ++
              (⟨s.start + s.len, o.start + o.len - (s.start + s.len)⟩ : RLE) :: t := by
            simp
          rw [hshape] at hiff
          exact hiff
        · intro x hx
          rcases memL_append.mp hx with hxd | hxl
          · have := hdone x hxd; omega
          · rcases memL_cons.mp hxl with h | hF
            · rw [memR_iff] at h; simp at h; omega
            · exact absurd hF (memL_nil x)
      · -- one left fragment: split ends exactly where the original does
        have hoE : o.start + o.len = s.start + s.len := by omega
        have hexc : o.excise s = some [⟨o.start, s.start - o.start⟩] := by
          simp [RLE.excise, hI, hc1, hc2]
        have heq : processSplit s done (o :: t) =
            .ok (done, (⟨o.start, s.start - o.start⟩ : RLE) :: t) := by
          simp only [processSplit, hexc]
        refine ⟨_, _, heq, ?_, ?_, ?_⟩
        · have hres := @wf_sandwich done
            [⟨o.start, s.start - o.start⟩] t
            hpd ?_ hpt ppd (List.pairwise_singleton _ _) ppt ?_ ?_ hdt
          · simpa only [List.append_assoc, List.singleton_append] using hres
          · intro r hr
            rcases List.mem_singleton.mp hr with rfl
            simp; omega
          · intro a ha b hb
            rcases List.mem_singleton.mp hb with rfl
            have h7 := hdo a ha
            unfold spanLt at h7 ⊢
            simp; omega
          · intro a ha b hb
            rcases List.mem_singleton.mp ha with rfl
            have h7 := hot b hb
            unfold spanLt at h7 ⊢
            simp; omega
        · intro x
          have hmid : memL x [o] ↔
              memL x [⟨o.start, s.start - o.start⟩] ∨ memR x s := by
            simp [memL, memR]
            omega
          have hmid' : memL x [⟨o.start, s.start - o.start⟩] → ¬ memR x s := by
            simp [memL, memR]
            omega
          have hiff := @memL_sandwich_iff x done [o] _ t _
            (hd_ns x) (ht_ns x) hmid hmid'
          rw [← List.append_cons, ← List.append_cons] at hiff
          exact hiff
        · intro x hx
          have := hdone x hx; omega
      · -- one right fragment: split starts exactly where the original does
        have hoA : o.start = s.start := by omega
        have hexc : o.excise s =
            some [⟨s.start + s.len, o.start + o.len - (s.start + s.len)⟩] := by
          simp [RLE.excise, hI, hc1, hc2]
        have heq : processSplit s done (o :: t) =
            .ok (done, (⟨s.start + s.len, o.start + o.len - (s.start + s.len)⟩ : RLE) :: t) := by
          simp only [processSplit, hexc]
        refine ⟨_, _, heq, ?_, ?_, ?_⟩
        · have hres := @wf_sandwich done
            [⟨s.start + s.len, o.start + o.len - (s.start + s.len)⟩] t
            hpd ?_ hpt ppd (List.pairwise_singleton _ _) ppt ?_ ?_ hdt
          · simpa only [List.append_assoc, List.singleton_append] using hres
          · intro r hr
            rcases List.mem_singleton.mp hr with rfl
            simp; omega
          · intro a ha b hb
            rcases List.mem_singleton.mp hb with rfl
            have h7 := hdo a ha
            unfold spanLt at h7 ⊢
            simp; omega
          · intro a ha b hb
            rcases List.mem_singleton.mp ha with rfl
            have h7 := hot b hb
            unfold spanLt at h7 ⊢
            simp; omega
        · intro x
          have hmid : memL x [o] ↔
              memL x [⟨s.start + s.len, o.start + o.len - (s.start + s.len)⟩] ∨ memR x s := by
            simp [memL, memR]
            omega
          have hmid' : memL x [⟨s.start + s.len, o.start + o.len - (s.start + s.len)⟩] →
              ¬ memR x s := by
            simp [memL, memR]
            omega
          have hiff := @memL_sandwich_iff x done [o] _ t _
            (hd_ns x) (ht_ns x) hmid hmid'
          rw [← List.append_cons, ← List.append_cons] at hiff
          exact hiff
        · intro x hx
          have := hdone x hx; omega
      · -- no fragments: the split span coincides with the original span
        have hoA : o.start = s.start := by omega
        have hoE : o.start + o.len = s.start + s.len := by omega
        have hexc : o.excise s = some [] := by
          simp [RLE.excise, hI, hc1, hc2]
        have heq : processSplit s done (o :: t) = .ok (done, t) := by
          cases t with
          | nil => simp only [processSplit, hexc]
          | cons peek t' =>
            have h7 := hot peek (by simp)
            unfold spanLt at h7
            have hnp : ¬(peek.start < s.start + s.len) := by omega
            have hip : s.intersects peek = false := by
              simp [RLE.intersects, hnp]
            simp [processSplit, hexc, hip]
        refine ⟨done, t, heq, hwf_dt, ?_, ?_⟩
        · intro x
          have hmid : memL x [o] ↔ memL x ([] : List RLE) ∨ memR x s := by
            simp only [memL_cons, memL_nil, or_false, false_or, memR_iff]
            omega
          have hmid' : memL x ([] : List RLE) → ¬ memR x s :=
            fun hF => absurd hF (memL_nil x)
          have hiff := @memL_sandwich_iff x done [o] _ t _
            (hd_ns x) (ht_ns x) hmid hmid'
          rw [← List.append_cons, List.append_nil] at hiff
          exact hiff
        · intro x hx
          have := hdone x hx; omega

/-- Correctness of the outer loop of `diffRLEs`: processing a well-formed
sequence of split spans, each covered by the remaining original spans and
starting beyond every span already passed, succeeds and removes exactly the
splits' voxels. -/
theorem diffLoop_spec (splits : List RLE) :
    ∀ done rest : List RLE, WF splits → WF (done ++ rest) →
    (∀ t ∈ splits, ∀ x, memR x t → memL x rest) →
    (∀ t ∈ splits, ∀ x, memL x done → x < t.start) →
    ∃ out, diffLoop splits done rest = .ok out ∧ WF out ∧
      (∀ x, memL x out ↔ memL x (done ++ rest) ∧ ¬ memL x splits) := by
  induction splits with
  | nil =>
    intro done rest _ hwf _ _
    exact ⟨done ++ rest, rfl, hwf, fun x => by simp [memL_nil]⟩
  | cons s ss ih =>
    intro done rest hwfS hwf hsub hdone
    have hs : 0 < s.len := hwfS.1 s (by simp)
    have hss_lt : ∀ t ∈ ss, spanLt s t := (List.pairwise_cons.mp hwfS.2).1
    obtain ⟨d, r, heq, hwfdr, hiff, hpost⟩ :=
      processSplit_spec s hs rest done hwf (hsub s (by simp)) (hdone s (by simp))
    have hwfS' : WF ss := wf_of_sublist (List.sublist_cons_self s ss) hwfS
    have hsub' : ∀ t ∈ ss, ∀ x, memR x t → memL x r := by
      intro t ht x hx
      have hxrest : memL x rest := hsub t (by simp [ht]) x hx
      have hxdr : memL x (d ++ r) := by
        rw [hiff x]
        refine ⟨memL_append.mpr (Or.inr hxrest), ?_⟩
        intro hmem
        rw [memR_iff] at hmem hx
        have h2 := hss_lt t ht
        unfold spanLt at h2
        omega
      rcases memL_append.mp hxdr with hxd | hxr
      · exfalso
        have h1 := hpost x hxd
        have h2 := hss_lt t ht
        rw [memR_iff] at hx
        unfold spanLt at h2
        omega
      · exact hxr
    have hdone' : ∀ t ∈ ss, ∀ x, memL x d → x < t.start := by
      intro t ht x hx
      have h1 := hpost x hx
      have h2 := hss_lt t ht
      unfold spanLt at h2
      omega
    obtain ⟨out, heq2, hwfo, hiffo⟩ := ih d r hwfS' hwfdr hsub' hdone'
    refine ⟨out, ?_, hwfo, ?_⟩
    · simp only [diffLoop, heq]
      exact heq2
    · intro x
      rw [hiffo x, hiff x]
      constructor
      · rintro ⟨⟨hm, hns⟩, hnss⟩
        refine ⟨hm, ?_⟩
        intro hmem
        rcases memL_cons.mp hmem with h | h
        · exact hns h
        · exact hnss h
      · rintro ⟨hm, hn⟩
        exact ⟨⟨hm, fun h => hn (memL_cons.mpr (Or.inl h))⟩,
               fun h => hn (memL_cons.mpr (Or.inr h))⟩

/-! ## The sort step is the identity on already-sorted span lists -/

theorem insertRLE_sorted_id {r : RLE} {l : List RLE}
    (h : ∀ b ∈ l, r.start ≤ b.start) : insertRLE r l = r :: l := by
  cases l with
  | nil => rfl
  | cons x xs => simp [insertRLE, h x (by simp)]

theorem sortRLEs_of_sorted :
    ∀ {l : List RLE}, l.Pairwise (fun a b => a.start ≤ b.start) → sortRLEs l = l
  | [], _ => rfl
  | r :: l, h => by
    obtain ⟨h1, h2⟩ := List.pairwise_cons.mp h
    have hrec : List.foldr insertRLE [] l = l := sortRLEs_of_sorted h2
    simp only [sortRLEs, List.foldr_cons] at *
    rw [hrec]
    exact insertRLE_sorted_id h1

theorem wf_pairwise_le {l : List RLE} (h : WF l) :
    l.Pairwise (fun a b => a.start ≤ b.start) := by
  refine List.Pairwise.imp_of_mem ?_ h.2
  intro a b ha _ hab
  have := h.1 a ha
  unfold spanLt at hab
  omega

/-- Full correctness of `diffRLEs` on subset inputs, used by the claim
theorems: with a nonempty well-formed split contained in a well-formed
original, the call succeeds, the residual and the split partition the
original's voxels, and a split covering everything yields `dup = true` with
an empty residual. -/
theorem diffRLEs_ok_spec (split orig : List RLE)
    (hwfS : WF split) (hwfO : WF orig) (hne : split ≠ [])
    (hsub : ∀ x, memL x split → memL x orig) :
    ∃ residual dup, diffRLEs split orig = .ok (residual, dup) ∧
      (∀ x, memL x residual ∨ memL x split ↔ memL x orig) ∧
      (∀ x, ¬ (memL x residual ∧ memL x split)) ∧
      ((∀ x, memL x split ↔ memL x orig) → residual = [] ∧ dup = true) := by
  have hsS : sortRLEs split = split := sortRLEs_of_sorted (wf_pairwise_le hwfS)
  have hsO : sortRLEs orig = orig := sortRLEs_of_sorted (wf_pairwise_le hwfO)
  have hispl : split.isEmpty = false := by
    cases split with
    | nil => exact absurd rfl hne
    | cons a l => rfl
  obtain ⟨out, heq, hwfo, hiffo⟩ := diffLoop_spec split [] orig hwfS hwfO
    (fun t ht x hx => hsub x ⟨t, ht, hx⟩)
    (fun t _ x hx => absurd hx (memL_nil x))
  have hiffo' : ∀ x, memL x out ↔ memL x orig ∧ ¬ memL x split := hiffo
  cases hout : out with
  | nil =>
    refine ⟨[], true, ?_, ?_, ?_, fun _ => ⟨rfl, rfl⟩⟩
    · simp only [diffRLEs, hispl, Bool.false_eq_true, if_false, hsS, hsO, heq, hout]
      rfl
    · intro x
      have h1 := hiffo' x
      rw [hout] at h1
      constructor
      · rintro (hF | hm)
        · exact absurd hF (memL_nil x)
        · exact hsub x hm
      · intro hm
        by_cases hx : memL x split
        · exact Or.inr hx
        · exact absurd (h1.mpr ⟨hm, hx⟩) (memL_nil x)
    · intro x ⟨hF, _⟩
      exact absurd hF (memL_nil x)
  | cons o rest =>
    rw [hout] at hiffo' hwfo
    refine ⟨o :: rest, false, ?_, ?_, ?_, ?_⟩
    · simp only [diffRLEs, hispl, Bool.false_eq_true, if_false, hsS, hsO, heq, hout]
      rfl
    · intro x
      constructor
      · rintro (hm | hm)
        · exact ((hiffo' x).mp hm).1
        · exact hsub x hm
      · intro hm
        by_cases hx : memL x split
        · exact Or.inr hx
        · exact Or.inl ((hiffo' x).mpr ⟨hm, hx⟩)
    · intro x ⟨hm, hsplit⟩
      exact ((hiffo' x).mp hm).2 hsplit
    · intro hfull
      exfalso
      have hpo : 0 < o.len := hwfo.1 o (by simp)
      have hmo : memL o.start (o :: rest) :=
        memL_cons.mpr (Or.inl ⟨le_refl _, by omega⟩)
      have h1 := (hiffo' o.start).mp hmo
      exact h1.2 ((hfull o.start).mpr h1.1)

/-- **C1** (amended).  For all disjoint, sorted RunLengthSets `orig` and
`split` where `split` is nonempty and a spatial subset of `orig`,
`diffRLEs split orig` returns a residual such that, as sets of voxel
offsets, residual ∪ split = orig and residual ∩ split = ∅; and when the
split covers exactly the voxels of `orig`, the returned `dup` flag is true
and the residual is empty.  (The amendment adds the nonemptiness of
`split`: `diffRLEs` rejects an empty split list with an error.) -/
theorem claim_C1_diff_correctness (split orig : List RLE)
    (hwfS : WF split) (hwfO : WF orig) (hne : split ≠ [])
    (hsub : ∀ x, memL x split → memL x orig) :
    ∃ residual dup, diffRLEs split orig = .ok (residual, dup) ∧
      (∀ x, memL x residual ∨ memL x split ↔ memL x orig) ∧
      (∀ x, ¬ (memL x residual ∧ memL x split)) ∧
      ((∀ x, memL x split ↔ memL x orig) → residual = [] ∧ dup = true) :=
  diffRLEs_ok_spec split orig hwfS hwfO hne hsub

/-- Witness for C1 at a concrete input: splitting `[4,6)` out of
`[0,10)` leaves `[0,4) ∪ [6,10)`. -/
theorem claim_C1_witness :
    ∃ residual dup, diffRLEs [⟨4, 2⟩] [⟨0, 10⟩] = .ok (residual, dup) ∧
      (∀ x, memL x residual ∨ memL x [⟨4, 2⟩] ↔ memL x [⟨0, 10⟩]) ∧
      (∀ x, ¬ (memL x residual ∧ memL x [⟨4, 2⟩])) ∧
      ((∀ x, memL x [⟨4, 2⟩] ↔ memL x [⟨0, 10⟩]) → residual = [] ∧ dup = true) :=
  claim_C1_diff_correctness [⟨4, 2⟩] [⟨0, 10⟩] (by decide) (by decide)
    (by decide) (by intro x hx; simp [memL, memR] at *; omega)

/-- **C1** (counterexample to the claim as stated): the empty split list is
a well-formed RunLengthSet that is (vacuously) a spatial subset of the empty
original, and the claim as stated would require `diffRLEs` to return an
empty residual with `dup = true`; instead `diffRLEs` rejects the call with
the `noSplits` error. -/
theorem claim_C1_counterexample :
    WF ([] : List RLE) ∧ (∀ x, memL x ([] : List RLE) → memL x ([] : List RLE)) ∧
    ¬ ∃ residual dup, diffRLEs ([] : List RLE) [] = .ok (residual, dup) := by
  refine ⟨by decide, fun x hx => hx, ?_⟩
  rintro ⟨residual, dup, h⟩
  simp [diffRLEs] at h

/-! ## The diff engine rejects split spans that touch no original span -/

/-- `f` lies inside the footprint of some span of `l`. -/
def subSpanOf (f : RLE) (l : List RLE) : Prop :=
  ∃ o ∈ l, o.start ≤ f.start ∧ f.start + f.len ≤ o.start + o.len

theorem excise_frag_bounds {o s : RLE} {frags : List RLE}
    (h : o.excise s = some frags) :
    ∀ f ∈ frags, o.start ≤ f.start ∧ f.start + f.len ≤ o.start + o.len := by
  intro f hf
  cases hI : o.intersects s with
  | false => simp [RLE.excise, hI] at h
  | true =>
    have hint : o.start < s.start + s.len ∧ s.start < o.start + o.len := by
      simpa [RLE.intersects] using hI
    simp only [RLE.excise, hI, if_true] at h
    by_cases hc1 : o.start < s.start <;> by_cases hc2 : s.start + s.len < o.start + o.len <;>
        simp only [hc1, hc2, if_true, if_false, List.singleton_append, List.nil_append,
          List.append_nil, if_pos, if_neg, not_false_iff, Option.some.injEq] at h <;>
      subst h <;> simp at hf
    · rcases hf with rfl | rfl <;> constructor <;> simp <;> omega
    · subst hf; constructor <;> simp <;> omega
    · subst hf; constructor <;> simp <;> omega

theorem intersects_false_of_sub {f o s : RLE}
    (h1 : o.start ≤ f.start) (h2 : f.start + f.len ≤ o.start + o.len)
    (ho : o.intersects s = false) : f.intersects s = false := by
  cases hf : f.intersects s with
  | false => rfl
  | true =>
    exfalso
    have hint : f.start < s.start + s.len ∧ s.start < f.start + f.len := by
      simpa [RLE.intersects] using hf
    have hno : ¬(o.start < s.start + s.len ∧ s.start < o.start + o.len) := by
      rintro ⟨a, b⟩
      simp [RLE.intersects, a, b] at ho
    omega

/-- When the split span intersects nothing ahead of the cursor, the inner
loop runs off the end of the list and reports the containment error, exactly
as merge_split.go lines 363-366 do. -/
theorem processSplit_error_of_disjoint (s : RLE) (rest : List RLE) :
    ∀ done, (∀ o ∈ rest, o.intersects s = false) →
    processSplit s done rest = .error (.notContained s) := by
  induction rest with
  | nil => intro _ _; rfl
  | cons o t ih =>
    intro done hdisj
    have hexc : o.excise s = none := by
      simp [RLE.excise, hdisj o (by simp)]
    simp only [processSplit, hexc]
    exact ih (done ++ [o]) (fun o' ho' => hdisj o' (by simp [ho']))

/-- All spans produced by the inner loop stay inside the footprint of the
original spans. -/
theorem processSplit_sub_invariant (s : RLE) (rest : List RLE) (P : List RLE) :
    ∀ done d r, processSplit s done rest = .ok (d, r) →
    (∀ f ∈ done ++ rest, subSpanOf f P) →
    ∀ f ∈ d ++ r, subSpanOf f P := by
  induction rest with
  | nil =>
    intro done d r h
    simp [processSplit] at h
  | cons o t ih =>
    intro done d r h hinv
    cases hexc : o.excise s with
    | none =>
      simp only [processSplit, hexc] at h
      refine ih (done ++ [o]) d r h ?_
      intro f hf
      apply hinv
      simp only [List.append_assoc, List.singleton_append] at hf
      exact hf
    | some frags =>
      have hb := excise_frag_bounds hexc
      have hoP : subSpanOf o P := hinv o (by simp)
      have hfragsP : ∀ f ∈ frags, subSpanOf f P := by
        intro f hf
        obtain ⟨q, hq, hq1, hq2⟩ := hoP
        obtain ⟨hb1, hb2⟩ := hb f hf
        exact ⟨q, hq, by omega, by omega⟩
      have hdinv : ∀ f ∈ done, subSpanOf f P := fun f hf => hinv f (by simp [hf])
      have htinv : ∀ f ∈ t, subSpanOf f P := fun f hf => hinv f (by simp [hf])
      match frags, hfragsP with
      | [], hfragsP =>
        cases t with
        | nil =>
          simp only [processSplit, hexc] at h
          cases h
          intro f hf
          rcases List.mem_append.mp hf with hf | hf
          · exact hdinv f hf
          · simp at hf
        | cons peek t' =>
          by_cases hip : s.intersects peek = true
          · simp only [processSplit, hexc, hip, if_true] at h
            refine ih done d r h ?_
            intro f hf
            rcases List.mem_append.mp hf with hf | hf
            · exact hdinv f hf
            · exact htinv f hf
          · simp only [processSplit, hexc, hip, if_false, Bool.false_eq_true] at h
            cases h
            intro f hf
            rcases List.mem_append.mp hf with hf | hf
            · exact hdinv f hf
            · exact htinv f hf
      | [f0], hfragsP =>
        simp only [processSplit, hexc] at h
        cases h
        intro f hf
        rcases List.mem_append.mp hf with hf | hf
        · exact hdinv f hf
        · rcases List.mem_cons.mp hf with rfl | hf
          · exact hfragsP f (by simp)
          · exact htinv f hf
      | [f0, f1], hfragsP =>
        simp only [processSplit, hexc] at h
        cases h
        intro f hf
        rcases List.mem_append.mp hf with hf | hf
        · rcases List.mem_append.mp hf with hf | hf
          · exact hdinv f hf
          · rcases List.mem_singleton.mp hf with rfl
            exact hfragsP f (by simp)
        · rcases List.mem_cons.mp hf with rfl | hf
          · exact hfragsP f (by simp)
          · exact htinv f hf
      | f0 :: f1 :: f2 :: fs, hfragsP =>
        simp only [processSplit, hexc] at h
        cases h

/-- The outer loop errors whenever some pending split span intersects none
of the original spans whose fragments make up the zipper state. -/
theorem diffLoop_error_of_uncovered (splits : List RLE) (s : RLE) (P : List RLE) :
    ∀ done rest, s ∈ splits →
    (∀ o ∈ P, o.intersects s = false) →
    (∀ f ∈ done ++ rest, subSpanOf f P) →
    ∃ e, diffLoop splits done rest = .error e := by
  induction splits with
  | nil =>
    intro _ _ h
    simp at h
  | cons t ss ih =>
    intro done rest hs hdisj hinv
    cases hps : processSplit t done rest with
    | error e => exact ⟨e, by simp [diffLoop, hps]⟩
    | ok dr =>
      obtain ⟨d, r⟩ := dr
      rcases List.mem_cons.mp hs with rfl | hs'
      · exfalso
        have hrest_dis : ∀ o ∈ rest, o.intersects s = false := by
          intro o ho
          obtain ⟨q, hq, h1, h2⟩ := hinv o (by simp [ho])
          exact intersects_false_of_sub h1 h2 (hdisj q hq)
        rw [processSplit_error_of_disjoint s rest done hrest_dis] at hps
        cases hps
      · have hinv' := processSplit_sub_invariant t rest P done d r hps hinv
        obtain ⟨e, he⟩ := ih d r hs' hdisj hinv'
        exact ⟨e, by simp [diffLoop, hps, he]⟩

theorem insertRLE_mem {x r : RLE} : ∀ {l : List RLE},
    x ∈ insertRLE r l ↔ x = r ∨ x ∈ l
  | [] => by simp [insertRLE]
  | a :: t => by
    simp only [insertRLE]
    by_cases h : r.start ≤ a.start
    · simp [h]
    · simp only [h, if_false, List.mem_cons, insertRLE_mem (l := t)]
      tauto

theorem sortRLEs_mem {x : RLE} : ∀ {l : List RLE}, x ∈ sortRLEs l ↔ x ∈ l
  | [] => by simp [sortRLEs]
  | a :: t => by
    simp only [sortRLEs, List.foldr_cons]
    rw [show List.foldr insertRLE [] t = sortRLEs t from rfl, insertRLE_mem]
    simp [sortRLEs_mem (x := x) (l := t)]

/-- **C5** (amended).  For every nonempty `split` and any `orig` where some
split span intersects none of `orig`'s spans (so it cannot be covered by the
remaining original spans), `diffRLEs` reports an error.  The `orig` argument
is left unmodified: the Go code sorts private copies of both inputs, and in
this pure embedding `diffRLEs` is a function of its arguments.  (The
amendment narrows "not covered by orig" to "intersects no remaining original
span", which is the condition the code actually detects; a split span that
merely sticks out of a span it overlaps is silently clipped, see the
counterexample.) -/
theorem claim_C5_uncovered_split_errors (split orig : List RLE) (hne : split ≠ [])
    (s : RLE) (hs : s ∈ split) (hdisj : ∀ o ∈ orig, o.intersects s = false) :
    ∃ e, diffRLEs split orig = .error e := by
  have hispl : split.isEmpty = false := by
    cases split with
    | nil => exact absurd rfl hne
    | cons a l => rfl
  have hsmem : s ∈ sortRLEs split := sortRLEs_mem.mpr hs
  have hinv : ∀ f ∈ ([] : List RLE) ++ sortRLEs orig, subSpanOf f orig := by
    intro f hf
    simp only [List.nil_append] at hf
    exact ⟨f, sortRLEs_mem.mp hf, le_refl _, le_refl _⟩
  obtain ⟨e, he⟩ :=
    diffLoop_error_of_uncovered (sortRLEs split) s orig [] (sortRLEs orig) hsmem hdisj hinv
  refine ⟨e, ?_⟩
  simp only [diffRLEs, hispl, Bool.false_eq_true, if_false, he]

/-- Witness for C5 (amended) at a concrete input: the split span `[20,24)`
touches no span of the original `[0,5)`, and the call errors. -/
theorem claim_C5_witness : ∃ e, diffRLEs [⟨20, 4⟩] [⟨0, 5⟩] = .error e :=
  claim_C5_uncovered_split_errors [⟨20, 4⟩] [⟨0, 5⟩] (by decide) ⟨20, 4⟩
    (by decide) (by decide)

/-- **C5** (counterexample to the claim as stated): the split span `[3,7)`
is not covered by the original `[0,5)` (voxels 5 and 6 are outside), yet
`diffRLEs` reports no error: it clips the overlap and returns the residual
`[0,3)`. -/
theorem claim_C5_counterexample :
    ¬ (∀ x, memL x [(⟨3, 4⟩ : RLE)] → memL x [(⟨0, 5⟩ : RLE)]) ∧
    diffRLEs [⟨3, 4⟩] [⟨0, 5⟩] = .ok ([⟨0, 3⟩], false) := by
  refine ⟨?_, rfl⟩
  intro h
  have h5 := h 5 (memL_iff.mpr ⟨⟨3, 4⟩, by simp, by rw [memR_iff]; constructor <;> simp⟩)
  obtain ⟨r, hr, hm⟩ := memL_iff.mp h5
  rcases List.mem_singleton.mp hr with rfl
  rw [memR_iff] at hm
  simp at hm

/-! ## The sparse store and the MergeLabels orchestrator

Labels and block coordinates are `Nat`; the store is an association list
from `(label, block)` to the block's RLEs, standing for the ordered
key-value store keyed by `NewTKey(label, block)`.  The storage collaborator
(`storage.SmallDataStore`, `Get`, `DeleteRange`, `Batch.Commit`) is not
under `src/`; it is modelled from the spec as an ordered key-value store
with atomic batch commit, and failures of the individual calls are injected
through a `MergeEnv`/`SplitEnv` flag per call site. -/

/-- The sparse label store: `(label, block) ↦ RLEs`. -/
abbrev Store := List ((Nat × Nat) × List RLE)

/-- Modelled from the spec: `store.Get` for one `(label, block)` key. -/
def lookupStore (st : Store) (k : Nat × Nat) : Option (List RLE) :=
  (st.find? (fun e => e.1 == k)).map (·.2)

/-- Modelled from the spec: `store.DeleteRange` over the key range of one
label (`NewTKey(label, MinIndex) .. NewTKey(label, MaxIndex)`). -/
def deleteLabel (st : Store) (l : Nat) : Store :=
  st.filter (fun e => e.1.1 != l)

/-- A single staged `batch.Put`, applied at commit. -/
def putStore (st : Store) (k : Nat × Nat) (v : List RLE) : Store :=
  st.filter (fun e => e.1 != k) ++ [(k, v)]

/-- Atomic application of a batch's staged puts. -/
def applyPuts (st : Store) (puts : List ((Nat × Nat) × List RLE)) : Store :=
  puts.foldl (fun acc p => putStore acc p.1 p.2) st

/-- Atomic application of a batch's staged deletes. -/
def applyDels (st : Store) (dels : List (Nat × Nat)) : Store :=
  dels.foldl (fun acc k => acc.filter (fun e => e.1 != k)) st

/-- Modelled from the spec: `GetLabelRLEs` (not under src/) loads a label's
full block → RLE map. -/
def getLabelRLEs (st : Store) (l : Nat) : List (Nat × List RLE) :=
  st.filterMap (fun e => if e.1.1 == l then some (e.1.2, e.2) else none)

/-- Modelled from the spec: `dvid.RLEs.NumVoxels` sums span lengths. -/
def rlesVoxels (rles : List RLE) : Int := (rles.map RLE.len).sum

/-- Total voxels of a block → RLE map (`BlockRLEs.NumVoxels`). -/
def blocksVoxels (brles : List (Nat × List RLE)) : Int :=
  (brles.map (fun b => rlesVoxels b.2)).sum

/-- A label's total voxel count in the sparse store. -/
def labelSize (st : Store) (l : Nat) : Int := blocksVoxels (getLabelRLEs st l)

/-- Voxel `x` of block `blk` belongs to label `l` in store `st`. -/
def labelVox (st : Store) (l blk : Nat) (x : Int) : Prop :=
  ∃ rles, lookupStore st (l, blk) = some rles ∧ memL x rles

/-- `labels.MergeOp`: all labels in `merged` are absorbed into `target`.
The Go `Merged` set is a map; the list fixes one iteration order. -/
structure MergeOp where
  target : Nat
  merged : List Nat
deriving DecidableEq, Repr

/-- The ordered trace of one orchestrator call: every published lifecycle
event (`NotifySubscribers`) and every durable storage write, in program
order. -/
inductive Action
  | evMergeStart (m : MergeOp)
  | evDeleteSize (label : Nat) (oldSize : Int)
  | evMergeBlock (m : MergeOp) (blocks : List Nat)
  | evReplaceSize (label : Nat) (oldSize newSize : Int)
  | evMergeEnd (m : MergeOp)
  | evSplitStart (fromLabel toLabel : Nat)
  | evSplitLabel (fromLabel toLabel : Nat)
      (splitmap : List (Nat × List RLE)) (blocks : List Nat)
  | evNewSize (label : Nat) (size : Int)
  | evModSize (label : Nat) (sizeDecrease : Int)
  | evSplitEnd (fromLabel toLabel : Nat)
  | actDeleteRange (label : Nat)
  | actWriteVol (label : Nat) (blocks : List Nat)
  | actCommit (puts : List ((Nat × Nat) × List RLE)) (dels : List (Nat × Nat))
deriving DecidableEq, Repr

/-- Failure injection for the storage calls made by `MergeLabels`, one flag
per call site. -/
structure MergeEnv where
  failGetTarget : Bool
  failGetSource : Nat → Bool
  failDeleteRange : Nat → Bool
  failCommit : Bool

/-- Errors returned by `MergeLabels` (formatted as strings by the Go code). -/
inductive MergeErr
  | getTarget
  | getSource (label : Nat)
  | deleteRange (label : Nat)
deriving DecidableEq, Repr

/-- Lookup in a block → RLE map. -/
def blkLookup (m : List (Nat × List RLE)) (blk : Nat) : Option (List RLE) :=
  (m.find? (fun e => e.1 == blk)).map (·.2)

/-- In-place update of a block's RLEs in a block → RLE map. -/
def blkReplace (m : List (Nat × List RLE)) (blk : Nat) (v : List RLE) :
    List (Nat × List RLE) :=
  m.map (fun e => if e.1 == blk then (blk, v) else e)

/-- Modelled from the spec: `dvid.RLEs.Add` (not under src/) unions the two
span sets; represented by concatenation, which denotes the same voxel set
for the disjoint span sets a merge combines. -/
def rlesAdd (a b : List RLE) : List RLE := a ++ b

/-- Per-source block loop of `MergeLabels` (merge_split.go lines 108-120):
mark each source block changed and union the source spans into the target's
block map. -/
def absorbBlocks : List Nat → List (Nat × List RLE) → List (Nat × List RLE) →
    List Nat × List (Nat × List RLE)
  | bc, toR, [] => (bc, toR)
  | bc, toR, (blk, fr) :: rest =>
    let bc' := if blk ∈ bc then bc else bc ++ [blk]
    let toR' := match blkLookup toR blk with
      | some tr => blkReplace toR blk (rlesAdd tr fr)
      | none => toR ++ [(blk, fr)]
    absorbBlocks bc' toR' rest

/-- Running state of the source loop of `MergeLabels`. -/
structure MergeLoopState where
  store : Store
  trace : List Action
  blocksChanged : List Nat
  toRLEs : List (Nat × List RLE)
  addedVoxels : Int

/-- The source-label loop of `MergeLabels` (merge_split.go lines 81-129):
for each source, read its RLEs (abort on GET failure), skip empty sources,
publish the size-delete event, union the source blocks into the target map,
and range-delete the source's keys (abort on failure). -/
def mergeLoop (env : MergeEnv) : List Nat → MergeLoopState →
    Except (Store × List Action × MergeErr) MergeLoopState
  | [], s => .ok s
  | fromLabel :: ls, s =>
    if env.failGetSource fromLabel then
      .error (s.store, s.trace, .getSource fromLabel)
    else
      let fromR := getLabelRLEs s.store fromLabel
      let fsize := blocksVoxels fromR
      if fsize = 0 ∨ fromR = [] then
        mergeLoop env ls s
      else
        let tr := s.trace ++ [.evDeleteSize fromLabel fsize]
        let p := absorbBlocks s.blocksChanged s.toRLEs fromR
        if env.failDeleteRange fromLabel then
          .error (s.store, tr, .deleteRange fromLabel)
        else
          mergeLoop env ls ⟨deleteLabel s.store fromLabel,
            tr ++ [.actDeleteRange fromLabel], p.1, p.2, s.addedVoxels + fsize⟩

/-- Embedding of `MergeLabels` (merge_split.go lines 44-175).  Returns the
post-call sparse store, the ordered trace of published events and durable
writes, and the returned error (`none` = nil).  Note the final
`batch.Commit` error is only logged by the Go code (line 154-156), so a
commit failure leaves the store unchanged but the call still publishes the
size-change and end events and returns nil. -/
def mergeLabels (env : MergeEnv) (st : Store) (m : MergeOp) :
    Store × List Action × Option MergeErr :=
  let tr0 : List Action := [.evMergeStart m]
  if env.failGetTarget then (st, tr0, some .getTarget)
  else
    let toR0 := getLabelRLEs st m.target
    let toLabelSize := blocksVoxels toR0
    match mergeLoop env m.merged ⟨st, [], [], toR0, 0⟩ with
    | .error (st', ltr, e) => (st', tr0 ++ ltr, some e)
    | .ok s =>
      if s.blocksChanged = [] then (s.store, tr0 ++ s.trace, none)
      else
        let puts := s.blocksChanged.map
          (fun blk => ((m.target, blk), (blkLookup s.toRLEs blk).getD []))
        let st' := if env.failCommit then s.store else applyPuts s.store puts
        (st', tr0 ++ s.trace ++
          [.evMergeBlock m s.blocksChanged, .actCommit puts [],
           .evReplaceSize m.target toLabelSize (toLabelSize + s.addedVoxels),
           .evMergeEnd m], none)

/-- Range-deletes of the whole MergeLabels call, in order. -/
def deleteLabels (st : Store) (ls : List Nat) : Store := ls.foldl deleteLabel st

/-! ## Store lemmas -/

theorem getLabelRLEs_deleteLabel_self (st : Store) (l : Nat) :
    getLabelRLEs (deleteLabel st l) l = [] := by
  induction st with
  | nil => rfl
  | cons e st ih =>
    by_cases h : e.1.1 = l
    · simpa [deleteLabel, getLabelRLEs, List.filter_cons, h] using ih
    · simpa [deleteLabel, getLabelRLEs, List.filter_cons, List.filterMap_cons, h] using ih

theorem getLabelRLEs_deleteLabel_ne {l l' : Nat} (h : l' ≠ l) (st : Store) :
    getLabelRLEs (deleteLabel st l) l' = getLabelRLEs st l' := by
  induction st with
  | nil => rfl
  | cons e st ih =>
    by_cases h1 : e.1.1 = l
    · simpa [deleteLabel, getLabelRLEs, List.filter_cons, List.filterMap_cons, h1, h,
        Ne.symm h] using ih
    · by_cases h2 : e.1.1 = l'
      · simpa [deleteLabel, getLabelRLEs, List.filter_cons, List.filterMap_cons, h1, h2,
          h, Ne.symm h] using ih
      · simpa [deleteLabel, getLabelRLEs, List.filter_cons, List.filterMap_cons, h1, h2,
          h, Ne.symm h] using ih

theorem getLabelRLEs_filter_key_ne {l : Nat} {k : Nat × Nat} (h : k.1 ≠ l) (st : Store) :
    getLabelRLEs (st.filter (fun e => e.1 != k)) l = getLabelRLEs st l := by
  induction st with
  | nil => rfl
  | cons e st ih =>
    by_cases h1 : e.1 = k
    · have h2 : ¬ e.1.1 = l := by rw [h1]; exact h
      simpa [getLabelRLEs, List.filter_cons, List.filterMap_cons, h1, h2, h] using ih
    · by_cases h2 : e.1.1 = l
      · simpa [getLabelRLEs, List.filter_cons, List.filterMap_cons, h1, h2, h] using ih
      · simpa [getLabelRLEs, List.filter_cons, List.filterMap_cons, h1, h2, h] using ih

theorem getLabelRLEs_append (a b : Store) (l : Nat) :
    getLabelRLEs (a ++ b) l = getLabelRLEs a l ++ getLabelRLEs b l := by
  simp [getLabelRLEs, List.filterMap_append]

theorem getLabelRLEs_putStore_ne {l : Nat} {k : Nat × Nat} {v : List RLE}
    (h : k.1 ≠ l) (st : Store) :
    getLabelRLEs (putStore st k v) l = getLabelRLEs st l := by
  rw [putStore, getLabelRLEs_append, getLabelRLEs_filter_key_ne h st]
  have h0 : getLabelRLEs [(k, v)] l = [] := by simp [getLabelRLEs, h]
  rw [h0, List.append_nil]

theorem getLabelRLEs_applyPuts_ne {l : Nat} {puts : List ((Nat × Nat) × List RLE)}
    (h : ∀ p ∈ puts, p.1.1 ≠ l) : ∀ st : Store,
    getLabelRLEs (applyPuts st puts) l = getLabelRLEs st l := by
  induction puts with
  | nil => intro st; rfl
  | cons p ps ih =>
    intro st
    have h1 : getLabelRLEs (putStore st p.1 p.2) l = getLabelRLEs st l :=
      getLabelRLEs_putStore_ne (h p (by simp)) st
    calc getLabelRLEs (applyPuts (putStore st p.1 p.2) ps) l
        = getLabelRLEs (putStore st p.1 p.2) l := ih (fun q hq => h q (by simp [hq])) _
      _ = getLabelRLEs st l := h1

theorem getLabelRLEs_deleteLabels_not_mem {t : Nat} {ds : List Nat} (h : t ∉ ds) :
    ∀ st : Store, getLabelRLEs (deleteLabels st ds) t = getLabelRLEs st t := by
  induction ds with
  | nil => intro st; rfl
  | cons d ds ih =>
    intro st
    have h1 : t ≠ d := fun hc => h (by simp [hc])
    calc getLabelRLEs (deleteLabels (deleteLabel st d) ds) t
        = getLabelRLEs (deleteLabel st d) t := ih (fun hc => h (by simp [hc])) _
      _ = getLabelRLEs st t := getLabelRLEs_deleteLabel_ne h1 st

/-! ## Shape of the MergeLabels source loop -/

/-- The store carried by a merge-loop outcome, error or success. -/
def mergeResultStore :
    Except (Store × List Action × MergeErr) MergeLoopState → Store
  | .error (st, _, _) => st
  | .ok s => s.store

/-- Whatever happens inside the source loop, the store is only ever changed
by whole-label range deletes of processed source labels. -/
theorem mergeLoop_deletes (env : MergeEnv) :
    ∀ (ls : List Nat) (s : MergeLoopState),
    ∃ ds, (∀ l ∈ ds, l ∈ ls) ∧
      mergeResultStore (mergeLoop env ls s) = deleteLabels s.store ds := by
  intro ls
  induction ls with
  | nil => intro s; exact ⟨[], by simp, rfl⟩
  | cons l ls ih =>
    intro s
    cases hgs : env.failGetSource l with
    | true =>
      exact ⟨[], by simp, by simp [mergeLoop, hgs, mergeResultStore, deleteLabels]⟩
    | false =>
      by_cases hskip : blocksVoxels (getLabelRLEs s.store l) = 0 ∨
          getLabelRLEs s.store l = []
      · obtain ⟨ds, hds, heq⟩ := ih s
        refine ⟨ds, fun x hx => by simp [hds x hx], ?_⟩
        rw [← heq]
        have hstep : mergeLoop env (l :: ls) s = mergeLoop env ls s := by
          simp [mergeLoop, hgs, hskip]
        rw [hstep]
      · cases hdr : env.failDeleteRange l with
        | true =>
          refine ⟨[], by simp, ?_⟩
          simp [mergeLoop, hgs, hskip, hdr, mergeResultStore, deleteLabels]
        | false =>
          have hstep : mergeLoop env (l :: ls) s =
              mergeLoop env ls ⟨deleteLabel s.store l,
                (s.trace ++ [.evDeleteSize l (blocksVoxels (getLabelRLEs s.store l))]) ++
                  [.actDeleteRange l],
                (absorbBlocks s.blocksChanged s.toRLEs (getLabelRLEs s.store l)).1,
                (absorbBlocks s.blocksChanged s.toRLEs (getLabelRLEs s.store l)).2,
                s.addedVoxels + blocksVoxels (getLabelRLEs s.store l)⟩ := by
            simp [mergeLoop, hgs, hskip, hdr]
          obtain ⟨ds, hds, heq⟩ := ih ⟨deleteLabel s.store l,
            (s.trace ++ [.evDeleteSize l (blocksVoxels (getLabelRLEs s.store l))]) ++
              [.actDeleteRange l],
            (absorbBlocks s.blocksChanged s.toRLEs (getLabelRLEs s.store l)).1,
            (absorbBlocks s.blocksChanged s.toRLEs (getLabelRLEs s.store l)).2,
            s.addedVoxels + blocksVoxels (getLabelRLEs s.store l)⟩
          refine ⟨l :: ds, ?_, ?_⟩
          · intro x hx
            rcases List.mem_cons.mp hx with rfl | hx
            · simp
            · simp [hds x hx]
          · rw [hstep, heq]
            rfl

/-- A source loop over labels with no recorded blocks does nothing: no
store change, no trace entries, no size accumulation. -/
theorem mergeLoop_all_empty (env : MergeEnv) :
    ∀ (ls : List Nat) (s : MergeLoopState),
    (∀ l ∈ ls, env.failGetSource l = false) →
    (∀ l ∈ ls, getLabelRLEs s.store l = []) →
    mergeLoop env ls s = .ok s := by
  intro ls
  induction ls with
  | nil => intro s _ _; rfl
  | cons l ls ih =>
    intro s h1 h2
    have hgs := h1 l (by simp)
    have hempty := h2 l (by simp)
    have hstep : mergeLoop env (l :: ls) s = mergeLoop env ls s := by
      simp [mergeLoop, hgs, hempty]
    rw [hstep]
    exact ih s (fun x hx => h1 x (by simp [hx])) (fun x hx => h2 x (by simp [hx]))

/-- One fully processed source label advances the loop with the source's
keys range-deleted, the two per-source trace entries appended, the source
blocks absorbed, and the source size accumulated. -/
theorem mergeLoop_cons_process (env : MergeEnv) (l : Nat) (ls : List Nat)
    (store : Store) (trace : List Action) (bc : List Nat)
    (toR : List (Nat × List RLE)) (added : Int)
    (hgs : env.failGetSource l = false)
    (hne : ¬ (blocksVoxels (getLabelRLEs store l) = 0 ∨ getLabelRLEs store l = []))
    (hdr : env.failDeleteRange l = false) :
    mergeLoop env (l :: ls) ⟨store, trace, bc, toR, added⟩ =
      mergeLoop env ls ⟨deleteLabel store l,
        (trace ++ [.evDeleteSize l (blocksVoxels (getLabelRLEs store l))]) ++
          [.actDeleteRange l],
        (absorbBlocks bc toR (getLabelRLEs store l)).1,
        (absorbBlocks bc toR (getLabelRLEs store l)).2,
        added + blocksVoxels (getLabelRLEs store l)⟩ := by
  simp [mergeLoop, hgs, hne, hdr]

/-- Absorbing a nonempty source block map (or starting from a nonempty
changed set) leaves the changed-blocks set nonempty. -/
theorem absorbBlocks_fst_nonempty :
    ∀ (fr : List (Nat × List RLE)) (bc : List Nat) (toR : List (Nat × List RLE)),
    bc ≠ [] ∨ fr ≠ [] → (absorbBlocks bc toR fr).1 ≠ []
  | [], bc, _, h => by
    rcases h with h | h
    · simpa [absorbBlocks] using h
    · exact absurd rfl h
  | (blk, fr0) :: rest, bc, toR, _ => by
    simp only [absorbBlocks]
    apply absorbBlocks_fst_nonempty
    left
    by_cases hin : blk ∈ bc
    · simp only [hin, if_true]
      exact List.ne_nil_of_mem hin
    · simp [hin]

/-- Explicit outcome of a successful merge whose source loop changed at
least one block: the target updates are committed in one batch and the
block, commit, size-change, and end entries follow the loop trace. -/
theorem mergeLabels_ok (env : MergeEnv) (st : Store) (m : MergeOp)
    (store2 : Store) (tr2 : List Action) (bc2 : List Nat)
    (toR2 : List (Nat × List RLE)) (added2 : Int)
    (hgt : env.failGetTarget = false)
    (hml : mergeLoop env m.merged ⟨st, [], [], getLabelRLEs st m.target, 0⟩ =
      .ok ⟨store2, tr2, bc2, toR2, added2⟩)
    (hbc : bc2 ≠ []) (hcommit : env.failCommit = false) :
    mergeLabels env st m =
      (applyPuts store2
        (bc2.map (fun blk => ((m.target, blk), (blkLookup toR2 blk).getD []))),
       [Action.evMergeStart m] ++ tr2 ++
         [.evMergeBlock m bc2,
          .actCommit
            (bc2.map (fun blk => ((m.target, blk), (blkLookup toR2 blk).getD []))) [],
          .evReplaceSize m.target (blocksVoxels (getLabelRLEs st m.target))
            (blocksVoxels (getLabelRLEs st m.target) + added2),
          .evMergeEnd m], none) := by
  simp [mergeLabels, hgt, hml, hbc, hcommit]

/-- **C7**.  If every source label in a MergeOp has zero recorded blocks,
`MergeLabels` returns success (nil error) without performing any durable
write (the store is returned unchanged) and without publishing any
block-level, size-change, or end event beyond the initial start event: the
no-op merge short-circuit of merge_split.go lines 89-92 and 131-134. -/
theorem claim_C7_noop_merge (env : MergeEnv) (st : Store) (m : MergeOp)
    (hgt : env.failGetTarget = false)
    (hgs : ∀ l ∈ m.merged, env.failGetSource l = false)
    (hempty : ∀ l ∈ m.merged, getLabelRLEs st l = []) :
    mergeLabels env st m = (st, [.evMergeStart m], none) := by
  have hloop :=
    mergeLoop_all_empty env m.merged ⟨st, [], [], getLabelRLEs st m.target, 0⟩ hgs hempty
  simp [mergeLabels, hgt, hloop]

/-- Witness for C7: merging the block-less labels 7 and 8 into label 5
leaves the store untouched, emits only the start event, and succeeds. -/
theorem claim_C7_witness :
    mergeLabels ⟨false, fun _ => false, fun _ => false, false⟩
      [((5, 0), [⟨0, 3⟩])] ⟨5, [7, 8]⟩ =
      ([((5, 0), [⟨0, 3⟩])], [.evMergeStart ⟨5, [7, 8]⟩], none) :=
  claim_C7_noop_merge ⟨false, fun _ => false, fun _ => false, false⟩
    [((5, 0), [⟨0, 3⟩])] ⟨5, [7, 8]⟩ rfl (by decide) (by decide)

/-- Puts addressed to the target label do not disturb another label's
entries. -/
theorem getLabelRLEs_apply_target_puts (store2 : Store) (bc2 : List Nat)
    (toR2 : List (Nat × List RLE)) (tgt l : Nat) (h : tgt ≠ l) :
    getLabelRLEs (applyPuts store2
      (bc2.map (fun blk => ((tgt, blk), (blkLookup toR2 blk).getD [])))) l =
    getLabelRLEs store2 l := by
  apply getLabelRLEs_applyPuts_ne
  intro p hp
  obtain ⟨blk, _, rfl⟩ := List.mem_map.mp hp
  exact h

/-- **C4**.  After `MergeLabels(v, {target, {a, b}})` succeeds, where the
sources `a` and `b` occupy voxel sets disjoint from the target and from
each other, the target's recorded size — the size published by the
`DeltaReplaceSize` event of merge_split.go lines 157-161, which is what the
size-tracking consumers persist — equals its size before the merge plus the
sizes of `a` and `b`, and labels `a` and `b` own zero blocks in the sparse
store afterwards. -/
theorem claim_C4_merge_sizes (env : MergeEnv) (st : Store) (t a b : Nat)
    (hgt : env.failGetTarget = false)
    (hgsa : env.failGetSource a = false) (hgsb : env.failGetSource b = false)
    (hdra : env.failDeleteRange a = false) (hdrb : env.failDeleteRange b = false)
    (hcommit : env.failCommit = false)
    (hat : a ≠ t) (hbt : b ≠ t) (hab : a ≠ b)
    (hsa : 0 < labelSize st a) (hsb : 0 < labelSize st b)
    (hdisj : ∀ blk x, (¬ (labelVox st a blk x ∧ labelVox st t blk x)) ∧
        (¬ (labelVox st b blk x ∧ labelVox st t blk x)) ∧
        (¬ (labelVox st a blk x ∧ labelVox st b blk x))) :
    ∃ st' tr, mergeLabels env st ⟨t, [a, b]⟩ = (st', tr, none) ∧
      getLabelRLEs st' a = [] ∧ getLabelRLEs st' b = [] ∧
      Action.evReplaceSize t (labelSize st t)
        (labelSize st t + (labelSize st a + labelSize st b)) ∈ tr := by
  clear hdisj
  have hb_eq : getLabelRLEs (deleteLabel st a) b = getLabelRLEs st b :=
    getLabelRLEs_deleteLabel_ne (Ne.symm hab) st
  have hsa' : 0 < blocksVoxels (getLabelRLEs st a) := hsa
  have hsb' : 0 < blocksVoxels (getLabelRLEs st b) := hsb
  have hskipa : ¬ (blocksVoxels (getLabelRLEs st a) = 0 ∨ getLabelRLEs st a = []) := by
    rintro (h | h)
    · omega
    · rw [h] at hsa'
      simp [blocksVoxels] at hsa'
  have hskipb : ¬ (blocksVoxels (getLabelRLEs (deleteLabel st a) b) = 0 ∨
      getLabelRLEs (deleteLabel st a) b = []) := by
    rw [hb_eq]
    rintro (h | h)
    · omega
    · rw [h] at hsb'
      simp [blocksVoxels] at hsb'
  have hml : mergeLoop env [a, b] ⟨st, [], [], getLabelRLEs st t, 0⟩ =
      .ok ⟨deleteLabel (deleteLabel st a) b,
        ((([] ++ [.evDeleteSize a (blocksVoxels (getLabelRLEs st a))]) ++
          [.actDeleteRange a]) ++
          [.evDeleteSize b (blocksVoxels (getLabelRLEs (deleteLabel st a) b))]) ++
          [.actDeleteRange b],
        (absorbBlocks
          (absorbBlocks [] (getLabelRLEs st t) (getLabelRLEs st a)).1
          (absorbBlocks [] (getLabelRLEs st t) (getLabelRLEs st a)).2
          (getLabelRLEs (deleteLabel st a) b)).1,
        (absorbBlocks
          (absorbBlocks [] (getLabelRLEs st t) (getLabelRLEs st a)).1
          (absorbBlocks [] (getLabelRLEs st t) (getLabelRLEs st a)).2
          (getLabelRLEs (deleteLabel st a) b)).2,
        0 + blocksVoxels (getLabelRLEs st a) +
          blocksVoxels (getLabelRLEs (deleteLabel st a) b)⟩ := by
    rw [mergeLoop_cons_process env a [b] st [] [] (getLabelRLEs st t) 0 hgsa hskipa hdra,
        mergeLoop_cons_process env b [] (deleteLabel st a) _ _ _ _ hgsb hskipb hdrb]
    rfl
  have hfra_ne : getLabelRLEs st a ≠ [] := by
    intro h
    rw [h] at hsa'
    simp [blocksVoxels] at hsa'
  have hbc1 : (absorbBlocks [] (getLabelRLEs st t) (getLabelRLEs st a)).1 ≠ [] :=
    absorbBlocks_fst_nonempty _ _ _ (Or.inr hfra_ne)
  have hbc2 : (absorbBlocks
      (absorbBlocks [] (getLabelRLEs st t) (getLabelRLEs st a)).1
      (absorbBlocks [] (getLabelRLEs st t) (getLabelRLEs st a)).2
      (getLabelRLEs (deleteLabel st a) b)).1 ≠ [] :=
    absorbBlocks_fst_nonempty _ _ _ (Or.inl hbc1)
  have hfull := mergeLabels_ok env st ⟨t, [a, b]⟩ _ _ _ _ _ hgt hml hbc2 hcommit
  refine ⟨_, _, hfull, ?_, ?_, ?_⟩
  · rw [getLabelRLEs_apply_target_puts _ _ _ _ _ (Ne.symm hat),
        getLabelRLEs_deleteLabel_ne hab, getLabelRLEs_deleteLabel_self]
  · rw [getLabelRLEs_apply_target_puts _ _ _ _ _ (Ne.symm hbt),
        getLabelRLEs_deleteLabel_self]
  · unfold labelSize
    rw [← hb_eq, show blocksVoxels (getLabelRLEs st t) +
        (blocksVoxels (getLabelRLEs st a) +
         blocksVoxels (getLabelRLEs (deleteLabel st a) b)) =
        blocksVoxels (getLabelRLEs st t) +
        (0 + blocksVoxels (getLabelRLEs st a) +
         blocksVoxels (getLabelRLEs (deleteLabel st a) b)) from by ring]
    simp

/-- Witness for C4: merging labels 1 (10 voxels in block 1) and 2 (5 voxels
in block 2), disjoint from each other and from block-less target 5, records
the target size 0 + 10 + 5 and leaves labels 1 and 2 without blocks. -/
theorem claim_C4_witness :
    ∃ st' tr, mergeLabels ⟨false, fun _ => false, fun _ => false, false⟩
        [((1, 1), [⟨0, 10⟩]), ((2, 2), [⟨10, 5⟩])] ⟨5, [1, 2]⟩ = (st', tr, none) ∧
      getLabelRLEs st' 1 = [] ∧ getLabelRLEs st' 2 = [] ∧
      Action.evReplaceSize 5
        (labelSize [((1, 1), [⟨0, 10⟩]), ((2, 2), [⟨10, 5⟩])] 5)
        (labelSize [((1, 1), [⟨0, 10⟩]), ((2, 2), [⟨10, 5⟩])] 5 +
          (labelSize [((1, 1), [⟨0, 10⟩]), ((2, 2), [⟨10, 5⟩])] 1 +
           labelSize [((1, 1), [⟨0, 10⟩]), ((2, 2), [⟨10, 5⟩])] 2)) ∈ tr :=
  claim_C4_merge_sizes ⟨false, fun _ => false, fun _ => false, false⟩
    [((1, 1), [⟨0, 10⟩]), ((2, 2), [⟨10, 5⟩])] 5 1 2
    rfl rfl rfl rfl rfl rfl (by decide) (by decide) (by decide) (by decide) (by decide)
    (by
      intro blk y
      refine ⟨?_, ?_, ?_⟩
      · rintro ⟨-, ⟨r2, h2, -⟩⟩
        simp [lookupStore, List.find?, instBEqProd, Prod.ext_iff] at h2
      · rintro ⟨-, ⟨r2, h2, -⟩⟩
        simp [lookupStore, List.find?, instBEqProd, Prod.ext_iff] at h2
      · rintro ⟨⟨r1, h1, m1⟩, ⟨r2, h2, m2⟩⟩
        by_cases hb : blk = 1
        · subst hb
          simp [lookupStore, List.find?, instBEqProd, Prod.ext_iff] at h2
        · have hbb : ((1 : Nat) == blk) = false := by
            simp [Ne.symm hb]
          simp [lookupStore, List.find?, instBEqProd, Prod.ext_iff, hbb] at h1)

/-- **C2** (counterexample to the claim as stated): merging sources 1 and 2
into label 9, where the GET of source 2's RLEs fails after source 1 has
already been processed, aborts the call with an error — yet source 1's
block entries have already been durably range-deleted (merge_split.go lines
122-128 delete each source inside the loop, before the final batch commit),
so the persisted sparse state differs from the pre-call state. -/
theorem claim_C2_counterexample :
    ((mergeLabels ⟨false, fun l => l == 2, fun _ => false, false⟩
        [((1, 0), [⟨0, 5⟩])] ⟨9, [1, 2]⟩).2.2.isSome = true) ∧
    (mergeLabels ⟨false, fun l => l == 2, fun _ => false, false⟩
        [((1, 0), [⟨0, 5⟩])] ⟨9, [1, 2]⟩).1 ≠ [((1, 0), [⟨0, 5⟩])] := by
  constructor
  · rfl
  · decide

/-- **C2** (amended).  For every MergeLabels call, no durable write of the
target label's RLEs occurs before the single batch commit: if the call
aborts with an error at any earlier step, the persisted sparse state
differs from the pre-call state only by the complete range-deletion of some
of the source labels' block entries; in particular, when the target is not
among the sources, the target's entries are unchanged on abort. -/
theorem claim_C2_abort_only_range_deletes (env : MergeEnv) (st : Store) (m : MergeOp)
    (herr : (mergeLabels env st m).2.2.isSome = true) :
    ∃ ds, (∀ l ∈ ds, l ∈ m.merged) ∧
      (mergeLabels env st m).1 = deleteLabels st ds ∧
      (m.target ∉ m.merged →
        getLabelRLEs (mergeLabels env st m).1 m.target = getLabelRLEs st m.target) := by
  cases hgt : env.failGetTarget with
  | true =>
    refine ⟨[], by simp, ?_, ?_⟩
    · simp [mergeLabels, hgt, deleteLabels]
    · intro _
      simp [mergeLabels, hgt]
  | false =>
    obtain ⟨ds, hds, heq⟩ :=
      mergeLoop_deletes env m.merged ⟨st, [], [], getLabelRLEs st m.target, 0⟩
    cases hml : mergeLoop env m.merged ⟨st, [], [], getLabelRLEs st m.target, 0⟩ with
    | error p =>
      obtain ⟨st', tr, e⟩ := p
      rw [hml] at heq
      simp only [mergeResultStore] at heq
      have hres : (mergeLabels env st m).1 = deleteLabels st ds := by
        simp only [mergeLabels, hgt, Bool.false_eq_true, if_false, hml]
        exact heq
      refine ⟨ds, hds, hres, ?_⟩
      intro hnt
      rw [hres]
      exact getLabelRLEs_deleteLabels_not_mem (fun hc => hnt (hds _ hc)) st
    | ok s =>
      exfalso
      by_cases hbc : s.blocksChanged = []
      · simp [mergeLabels, hgt, hml, hbc] at herr
      · simp [mergeLabels, hgt, hml, hbc] at herr

/-- Witness for C2 (amended) at the counterexample input: the abort leaves
exactly source 1's entries range-deleted and label 9's entries unchanged. -/
theorem claim_C2_witness :
    ∃ ds, (∀ l ∈ ds, l ∈ ([1, 2] : List Nat)) ∧
      (mergeLabels ⟨false, fun l => l == 2, fun _ => false, false⟩
        [((1, 0), [⟨0, 5⟩])] ⟨9, [1, 2]⟩).1 = deleteLabels [((1, 0), [⟨0, 5⟩])] ds ∧
      ((9 : Nat) ∉ ([1, 2] : List Nat) →
        getLabelRLEs (mergeLabels ⟨false, fun l => l == 2, fun _ => false, false⟩
          [((1, 0), [⟨0, 5⟩])] ⟨9, [1, 2]⟩).1 9 =
        getLabelRLEs [((1, 0), [⟨0, 5⟩])] 9) :=
  claim_C2_abort_only_range_deletes ⟨false, fun l => l == 2, fun _ => false, false⟩
    [((1, 0), [⟨0, 5⟩])] ⟨9, [1, 2]⟩ (by decide)

/-! ## The SplitLabels orchestrator -/

/-- Failure injection for the storage calls made by `SplitLabels`, one flag
per call site. -/
structure SplitEnv where
  failNewLabel : Bool
  failWriteVol : Bool
  failGet : Nat → Bool
  failCommit : Bool

/-- Errors returned by `SplitLabels` (formatted as strings by the Go code;
`notOwned` is "Split RLEs at block … are not part of original label …"). -/
inductive SplitErr
  | newLabel
  | writeVol
  | getFail (blk : Nat)
  | notOwned (blk : Nat)
  | diffFail (e : DiffErr)
deriving DecidableEq, Repr

/-- Sorted insertion of a block key. -/
def insertNat (n : Nat) : List Nat → List Nat
  | [] => [n]
  | x :: xs => if n ≤ x then n :: x :: xs else x :: insertNat n xs

/-- Modelled from the spec: `dvid.BlockRLEs.SortedKeys` (not under src/)
returns the partition's block keys in sorted order. -/
def sortedKeys (m : List (Nat × List RLE)) : List Nat :=
  (m.map (·.1)).foldr insertNat []

/-- The per-block loop of `SplitLabels` (merge_split.go lines 258-291): read
the original RLEs for `(fromLabel, blk)` — a GET failure or a missing entry
aborts the call — diff out the split spans, and stage a delete (full
duplicate) or a put of the residual in the batch. -/
def splitLoop (env : SplitEnv) (st : Store) (fromLabel : Nat)
    (splitmap : List (Nat × List RLE)) :
    List Nat → List ((Nat × Nat) × List RLE) → List (Nat × Nat) →
    Except SplitErr (List ((Nat × Nat) × List RLE) × List (Nat × Nat))
  | [], puts, dels => .ok (puts, dels)
  | blk :: rest, puts, dels =>
    if env.failGet blk then .error (.getFail blk)
    else
      match lookupStore st (fromLabel, blk) with
      | none => .error (.notOwned blk)
      | some rles =>
        match diffRLEs ((blkLookup splitmap blk).getD []) rles with
        | .error e => .error (.diffFail e)
        | .ok (modified, dup) =>
          if dup then
            splitLoop env st fromLabel splitmap rest puts (dels ++ [(fromLabel, blk)])
          else
            splitLoop env st fromLabel splitmap rest
              (puts ++ [((fromLabel, blk), modified)]) dels

/-- Embedding of `SplitLabels` (merge_split.go lines 189-326).  The binary
sparse volume is taken already parsed and partitioned per block
(`dvid.ReadRLEs` and `RLEs.Partition` are not under src/; per the spec step
4 they produce the SplitOp-shaped per-block partition whose total voxel
count is the split size), and `toLabel` is the freshly allocated id
(`NewLabel`'s persisted counter is not under src/).  Returns the post-call
store, the ordered trace, and the error.  As in `MergeLabels`, a failure of
the final batch commit is only logged (lines 293-295): the staged
modifications of the source label's blocks are lost but the call still
publishes the size and end events and returns nil. -/
def splitLabels (env : SplitEnv) (st : Store) (fromLabel toLabel : Nat)
    (splitmap : List (Nat × List RLE)) :
    Store × List Action × Option SplitErr :=
  if env.failNewLabel then (st, [], some .newLabel)
  else
    let toLabelSize := blocksVoxels splitmap
    let splitblks := sortedKeys splitmap
    let tr0 : List Action :=
      [.evSplitStart fromLabel toLabel,
       .evSplitLabel fromLabel toLabel splitmap splitblks]
    if env.failWriteVol then (st, tr0, some .writeVol)
    else
      let st1 := applyPuts st
        (splitblks.map (fun blk => ((toLabel, blk), (blkLookup splitmap blk).getD [])))
      let tr1 := tr0 ++ [.actWriteVol toLabel splitblks]
      match splitLoop env st1 fromLabel splitmap splitblks [] [] with
      | .error e => (st1, tr1, some e)
      | .ok (puts, dels) =>
        let st2 := if env.failCommit then st1 else applyDels (applyPuts st1 puts) dels
        (st2, tr1 ++
          [.actCommit puts dels, .evNewSize toLabel toLabelSize,
           .evModSize fromLabel toLabelSize, .evSplitEnd fromLabel toLabel], none)

example : splitLabels ⟨false, false, fun _ => false, false⟩
    [((7, 0), [⟨0, 10⟩])] 7 8 [(0, [⟨0, 10⟩])] =
    ([((8, 0), [⟨0, 10⟩])],
     [.evSplitStart 7 8, .evSplitLabel 7 8 [(0, [⟨0, 10⟩])] [0],
      .actWriteVol 8 [0], .actCommit [] [(7, 0)],
      .evNewSize 8 10, .evModSize 7 10, .evSplitEnd 7 8], none) := rfl

/-! ## C9: a split block missing from the source label aborts the call -/

theorem find?_filter_key_ne (st : Store) (k k' : Nat × Nat) (h : k' ≠ k) :
    (st.filter (fun e => e.1 != k')).find? (fun e => e.1 == k) =
      st.find? (fun e => e.1 == k) := by
  have hkk : (k' == k) = false := by simp [h]
  induction st with
  | nil => rfl
  | cons e st ih =>
    by_cases h1 : e.1 = k'
    · have h2 : (e.1 == k) = false := by simp [h1, h]
      simp [List.filter_cons, h1, List.find?_cons, h2, hkk, ih]
    · by_cases h2 : e.1 = k
      · have h3 : ¬ k = k' := by rw [← h2]; exact h1
        simp [List.filter_cons, h1, List.find?_cons, h2, h3, ih]
      · simp [List.filter_cons, h1, List.find?_cons, h2, ih]

theorem lookupStore_putStore_ne {k k' : Nat × Nat} {v : List RLE} (h : k' ≠ k)
    (st : Store) :
    lookupStore (putStore st k' v) k = lookupStore st k := by
  have hkk : (k' == k) = false := by simp [h]
  unfold lookupStore putStore
  rw [List.find?_append, find?_filter_key_ne st k k' h]
  cases hf : st.find? (fun e => e.1 == k) with
  | none =>
    simp [List.find?, hkk]
  | some e => rfl

theorem lookupStore_applyPuts_ne {k : Nat × Nat}
    {puts : List ((Nat × Nat) × List RLE)} (h : ∀ p ∈ puts, p.1 ≠ k) :
    ∀ st : Store, lookupStore (applyPuts st puts) k = lookupStore st k := by
  induction puts with
  | nil => intro st; rfl
  | cons p ps ih =>
    intro st
    calc lookupStore (applyPuts (putStore st p.1 p.2) ps) k
        = lookupStore (putStore st p.1 p.2) k := ih (fun q hq => h q (by simp [hq])) _
      _ = lookupStore st k := lookupStore_putStore_ne (h p (by simp)) st

/-- If every earlier listed block reads and diffs cleanly, the loop reaches
the first block whose `(fromLabel, blk)` entry is missing and fails with
the not-owned error for that block. -/
theorem splitLoop_reaches_missing (env : SplitEnv) (st : Store) (fromLabel : Nat)
    (splitmap : List (Nat × List RLE))
    (hget : ∀ blk, env.failGet blk = false) :
    ∀ (pre : List Nat) (blk : Nat) (post : List Nat)
      (puts : List ((Nat × Nat) × List RLE)) (dels : List (Nat × Nat)),
    lookupStore st (fromLabel, blk) = none →
    (∀ b ∈ pre, ∃ rles, lookupStore st (fromLabel, b) = some rles ∧
      ∃ out, diffRLEs ((blkLookup splitmap b).getD []) rles = .ok out) →
    splitLoop env st fromLabel splitmap (pre ++ blk :: post) puts dels =
      .error (.notOwned blk) := by
  intro pre
  induction pre with
  | nil =>
    intro blk post puts dels hmiss _
    simp [splitLoop, hget blk, hmiss]
  | cons b pre ih =>
    intro blk post puts dels hmiss hpre
    obtain ⟨rles, hrles, ⟨out, hout⟩⟩ := hpre b (by simp)
    obtain ⟨modified, dup⟩ := out
    cases dup with
    | true =>
      have hstep : splitLoop env st fromLabel splitmap ((b :: pre) ++ blk :: post)
          puts dels =
          splitLoop env st fromLabel splitmap (pre ++ blk :: post)
            puts (dels ++ [(fromLabel, b)]) := by
        simp [splitLoop, hget b, hrles, hout]
      rw [hstep]
      exact ih blk post _ _ hmiss (fun x hx => hpre x (by simp [hx]))
    | false =>
      have hstep : splitLoop env st fromLabel splitmap ((b :: pre) ++ blk :: post)
          puts dels =
          splitLoop env st fromLabel splitmap (pre ++ blk :: post)
            (puts ++ [((fromLabel, b), modified)]) dels := by
        simp [splitLoop, hget b, hrles, hout]
      rw [hstep]
      exact ih blk post _ _ hmiss (fun x hx => hpre x (by simp [hx]))

/-- **C9**.  During `SplitLabels`, for every block in the split's sorted
block list, if the sparse store holds no RLE entry for `(oldLabel, block)`
when the loop reaches it (every earlier listed block reads and diffs
cleanly), the call fails with the error reporting that the split references
a block not owned by the source label, and that error is returned to the
caller. -/
theorem claim_C9_split_unowned_block (env : SplitEnv) (st : Store)
    (fromLabel toLabel : Nat) (splitmap : List (Nat × List RLE))
    (hnl : env.failNewLabel = false) (hwv : env.failWriteVol = false)
    (hget : ∀ blk, env.failGet blk = false)
    (htf : toLabel ≠ fromLabel)
    (pre : List Nat) (blk : Nat) (post : List Nat)
    (hsorted : sortedKeys splitmap = pre ++ blk :: post)
    (hmiss : lookupStore st (fromLabel, blk) = none)
    (hpre : ∀ b ∈ pre, ∃ rles, lookupStore st (fromLabel, b) = some rles ∧
      ∃ out, diffRLEs ((blkLookup splitmap b).getD []) rles = .ok out) :
    (splitLabels env st fromLabel toLabel splitmap).2.2 =
      some (.notOwned blk) := by
  have hputs_ne : ∀ b : Nat, ∀ p ∈ (sortedKeys splitmap).map
      (fun blk' => ((toLabel, blk'), (blkLookup splitmap blk').getD [])),
      p.1 ≠ (fromLabel, b) := by
    intro b p hp
    obtain ⟨blk', _, rfl⟩ := List.mem_map.mp hp
    intro hc
    exact htf (congrArg Prod.fst hc)
  have hst1 : ∀ b : Nat,
      lookupStore (applyPuts st ((sortedKeys splitmap).map
        (fun blk' => ((toLabel, blk'), (blkLookup splitmap blk').getD []))))
        (fromLabel, b) = lookupStore st (fromLabel, b) :=
    fun b => lookupStore_applyPuts_ne (hputs_ne b) st
  have hloop := splitLoop_reaches_missing env
    (applyPuts st ((sortedKeys splitmap).map
      (fun blk' => ((toLabel, blk'), (blkLookup splitmap blk').getD []))))
    fromLabel splitmap hget pre blk post [] []
    (by rw [hst1 blk]; exact hmiss)
    (by
      intro b hb
      obtain ⟨rles, hrles, hout⟩ := hpre b hb
      exact ⟨rles, by rw [hst1 b]; exact hrles, hout⟩)
  simp only [splitLabels, hnl, hwv, Bool.false_eq_true, if_false]
  rw [hsorted] at hloop ⊢
  rw [hloop]

/-! ## C3: which storage failures are returned and which are swallowed -/

/-- A source-GET failure always aborts the source loop with an error. -/
theorem mergeLoop_error_of_getsource (env : MergeEnv) :
    ∀ (ls : List Nat) (s : MergeLoopState) (b : Nat), b ∈ ls →
    env.failGetSource b = true →
    ∃ p, mergeLoop env ls s = .error p := by
  intro ls
  induction ls with
  | nil =>
    intro s b h
    simp at h
  | cons l ls ih =>
    intro s b hb hfb
    cases hgs : env.failGetSource l with
    | true =>
      exact ⟨(s.store, s.trace, .getSource l), by simp [mergeLoop, hgs]⟩
    | false =>
      have hbl : b ∈ ls := by
        rcases List.mem_cons.mp hb with rfl | h
        · rw [hgs] at hfb
          cases hfb
        · exact h
      by_cases hskip : blocksVoxels (getLabelRLEs s.store l) = 0 ∨
          getLabelRLEs s.store l = []
      · obtain ⟨p, hp⟩ := ih s b hbl hfb
        refine ⟨p, ?_⟩
        rw [show mergeLoop env (l :: ls) s = mergeLoop env ls s from by
          simp [mergeLoop, hgs, hskip]]
        exact hp
      · cases hdr : env.failDeleteRange l with
        | true =>
          exact ⟨(s.store,
            s.trace ++ [.evDeleteSize l (blocksVoxels (getLabelRLEs s.store l))],
            .deleteRange l), by simp [mergeLoop, hgs, hskip, hdr]⟩
        | false =>
          have hstep : mergeLoop env (l :: ls) s =
              mergeLoop env ls ⟨deleteLabel s.store l,
                (s.trace ++ [.evDeleteSize l (blocksVoxels (getLabelRLEs s.store l))]) ++
                  [.actDeleteRange l],
                (absorbBlocks s.blocksChanged s.toRLEs (getLabelRLEs s.store l)).1,
                (absorbBlocks s.blocksChanged s.toRLEs (getLabelRLEs s.store l)).2,
                s.addedVoxels + blocksVoxels (getLabelRLEs s.store l)⟩ := by
            simp [mergeLoop, hgs, hskip, hdr]
          obtain ⟨p, hp⟩ := ih _ b hbl hfb
          exact ⟨p, by rw [hstep]; exact hp⟩

/-- A range-delete failure on a source with voxels always aborts the source
loop with an error (the source must be nonempty, otherwise it is skipped
before the delete). -/
theorem mergeLoop_error_of_deleterange (env : MergeEnv) :
    ∀ (ls : List Nat) (s : MergeLoopState) (b : Nat), b ∈ ls → ls.Nodup →
    (∀ l, env.failGetSource l = false) →
    env.failDeleteRange b = true →
    0 < labelSize s.store b →
    ∃ p, mergeLoop env ls s = .error p := by
  intro ls
  induction ls with
  | nil =>
    intro s b h
    simp at h
  | cons l ls ih =>
    intro s b hb hnd hgs hdb hsize
    obtain ⟨hl_notin, hnd'⟩ := List.nodup_cons.mp hnd
    rcases List.mem_cons.mp hb with rfl | hbl
    · have hskip : ¬ (blocksVoxels (getLabelRLEs s.store b) = 0 ∨
          getLabelRLEs s.store b = []) := by
        rw [labelSize] at hsize
        rintro (h | h)
        · omega
        · rw [h] at hsize
          simp [blocksVoxels] at hsize
      exact ⟨(s.store,
        s.trace ++ [.evDeleteSize b (blocksVoxels (getLabelRLEs s.store b))],
        .deleteRange b), by simp [mergeLoop, hgs b, hskip, hdb]⟩
    · have hlb : l ≠ b := fun hc => hl_notin (hc ▸ hbl)
      by_cases hskip : blocksVoxels (getLabelRLEs s.store l) = 0 ∨
          getLabelRLEs s.store l = []
      · obtain ⟨p, hp⟩ := ih s b hbl hnd' hgs hdb hsize
        refine ⟨p, ?_⟩
        rw [show mergeLoop env (l :: ls) s = mergeLoop env ls s from by
          simp [mergeLoop, hgs l, hskip]]
        exact hp
      · cases hdr : env.failDeleteRange l with
        | true =>
          exact ⟨(s.store,
            s.trace ++ [.evDeleteSize l (blocksVoxels (getLabelRLEs s.store l))],
            .deleteRange l), by simp [mergeLoop, hgs l, hskip, hdr]⟩
        | false =>
          have hstep : mergeLoop env (l :: ls) s =
              mergeLoop env ls ⟨deleteLabel s.store l,
                (s.trace ++ [.evDeleteSize l (blocksVoxels (getLabelRLEs s.store l))]) ++
                  [.actDeleteRange l],
                (absorbBlocks s.blocksChanged s.toRLEs (getLabelRLEs s.store l)).1,
                (absorbBlocks s.blocksChanged s.toRLEs (getLabelRLEs s.store l)).2,
                s.addedVoxels + blocksVoxels (getLabelRLEs s.store l)⟩ := by
            simp [mergeLoop, hgs l, hskip, hdr]
          have hsize' : 0 < labelSize (deleteLabel s.store l) b := by
            rw [labelSize, getLabelRLEs_deleteLabel_ne (Ne.symm hlb)]
            exact hsize
          obtain ⟨p, hp⟩ := ih ⟨deleteLabel s.store l,
            (s.trace ++ [.evDeleteSize l (blocksVoxels (getLabelRLEs s.store l))]) ++
              [.actDeleteRange l],
            (absorbBlocks s.blocksChanged s.toRLEs (getLabelRLEs s.store l)).1,
            (absorbBlocks s.blocksChanged s.toRLEs (getLabelRLEs s.store l)).2,
            s.addedVoxels + blocksVoxels (getLabelRLEs s.store l)⟩ b hbl hnd' hgs hdb hsize'
          exact ⟨p, by rw [hstep]; exact hp⟩

/-- With healthy source GETs and range deletes the source loop always
succeeds. -/
theorem mergeLoop_ok_of_no_failures (env : MergeEnv) :
    ∀ (ls : List Nat) (s : MergeLoopState),
    (∀ l ∈ ls, env.failGetSource l = false) →
    (∀ l ∈ ls, env.failDeleteRange l = false) →
    ∃ s', mergeLoop env ls s = .ok s' := by
  intro ls
  induction ls with
  | nil => intro s _ _; exact ⟨s, rfl⟩
  | cons l ls ih =>
    intro s hgs hdr
    by_cases hskip : blocksVoxels (getLabelRLEs s.store l) = 0 ∨
        getLabelRLEs s.store l = []
    · obtain ⟨s', hp⟩ := ih s (fun x hx => hgs x (by simp [hx]))
        (fun x hx => hdr x (by simp [hx]))
      refine ⟨s', ?_⟩
      rw [show mergeLoop env (l :: ls) s = mergeLoop env ls s from by
        simp [mergeLoop, hgs l (by simp), hskip]]
      exact hp
    · have hstep : mergeLoop env (l :: ls) s =
          mergeLoop env ls ⟨deleteLabel s.store l,
            (s.trace ++ [.evDeleteSize l (blocksVoxels (getLabelRLEs s.store l))]) ++
              [.actDeleteRange l],
            (absorbBlocks s.blocksChanged s.toRLEs (getLabelRLEs s.store l)).1,
            (absorbBlocks s.blocksChanged s.toRLEs (getLabelRLEs s.store l)).2,
            s.addedVoxels + blocksVoxels (getLabelRLEs s.store l)⟩ := by
        simp [mergeLoop, hgs l (by simp), hskip, hdr l (by simp)]
      obtain ⟨s', hp⟩ := ih _ (fun x hx => hgs x (by simp [hx]))
        (fun x hx => hdr x (by simp [hx]))
      exact ⟨s', by rw [hstep]; exact hp⟩

/-- A dense-GET failure on any listed block aborts the split's block loop
with an error. -/
theorem splitLoop_error_of_getfail (env : SplitEnv) (st : Store) (fromLabel : Nat)
    (splitmap : List (Nat × List RLE)) :
    ∀ (blks : List Nat) (puts : List ((Nat × Nat) × List RLE))
      (dels : List (Nat × Nat)) (b : Nat), b ∈ blks → env.failGet b = true →
    ∃ e, splitLoop env st fromLabel splitmap blks puts dels = .error e := by
  intro blks
  induction blks with
  | nil =>
    intro _ _ b h
    simp at h
  | cons h0 blks ih =>
    intro puts dels b hb hfb
    cases hgf : env.failGet h0 with
    | true => exact ⟨.getFail h0, by simp [splitLoop, hgf]⟩
    | false =>
      have hbl : b ∈ blks := by
        rcases List.mem_cons.mp hb with rfl | h
        · rw [hgf] at hfb
          cases hfb
        · exact h
      cases hlk : lookupStore st (fromLabel, h0) with
      | none => exact ⟨.notOwned h0, by simp [splitLoop, hgf, hlk]⟩
      | some rles =>
        cases hdiff : diffRLEs ((blkLookup splitmap h0).getD []) rles with
        | error e => exact ⟨.diffFail e, by simp [splitLoop, hgf, hlk, hdiff]⟩
        | ok out =>
          obtain ⟨modified, dup⟩ := out
          cases dup with
          | true =>
            obtain ⟨e, he⟩ := ih puts (dels ++ [(fromLabel, h0)]) b hbl hfb
            refine ⟨e, ?_⟩
            rw [show splitLoop env st fromLabel splitmap (h0 :: blks) puts dels =
              splitLoop env st fromLabel splitmap blks puts (dels ++ [(fromLabel, h0)])
              from by simp [splitLoop, hgf, hlk, hdiff]]
            exact he
          | false =>
            obtain ⟨e, he⟩ := ih (puts ++ [((fromLabel, h0), modified)]) dels b hbl hfb
            refine ⟨e, ?_⟩
            rw [show splitLoop env st fromLabel splitmap (h0 :: blks) puts dels =
              splitLoop env st fromLabel splitmap blks
                (puts ++ [((fromLabel, h0), modified)]) dels
              from by simp [splitLoop, hgf, hlk, hdiff]]
            exact he

/-- When every listed block reads and diffs cleanly, the split's block loop
succeeds. -/
theorem splitLoop_ok_of_clean (env : SplitEnv) (st : Store) (fromLabel : Nat)
    (splitmap : List (Nat × List RLE)) :
    ∀ (blks : List Nat) (puts : List ((Nat × Nat) × List RLE))
      (dels : List (Nat × Nat)),
    (∀ b ∈ blks, env.failGet b = false) →
    (∀ b ∈ blks, ∃ rles, lookupStore st (fromLabel, b) = some rles ∧
      ∃ out, diffRLEs ((blkLookup splitmap b).getD []) rles = .ok out) →
    ∃ out, splitLoop env st fromLabel splitmap blks puts dels = .ok out := by
  intro blks
  induction blks with
  | nil => intro puts dels _ _; exact ⟨(puts, dels), rfl⟩
  | cons h0 blks ih =>
    intro puts dels hget hclean
    obtain ⟨rles, hrles, ⟨out0, hout⟩⟩ := hclean h0 (by simp)
    obtain ⟨modified, dup⟩ := out0
    cases dup with
    | true =>
      obtain ⟨out, ho⟩ := ih puts (dels ++ [(fromLabel, h0)])
        (fun x hx => hget x (by simp [hx])) (fun x hx => hclean x (by simp [hx]))
      refine ⟨out, ?_⟩
      rw [show splitLoop env st fromLabel splitmap (h0 :: blks) puts dels =
        splitLoop env st fromLabel splitmap blks puts (dels ++ [(fromLabel, h0)])
        from by simp [splitLoop, hget h0 (by simp), hrles, hout]]
      exact ho
    | false =>
      obtain ⟨out, ho⟩ := ih (puts ++ [((fromLabel, h0), modified)]) dels
        (fun x hx => hget x (by simp [hx])) (fun x hx => hclean x (by simp [hx]))
      refine ⟨out, ?_⟩
      rw [show splitLoop env st fromLabel splitmap (h0 :: blks) puts dels =
        splitLoop env st fromLabel splitmap blks
          (puts ++ [((fromLabel, h0), modified)]) dels
        from by simp [splitLoop, hget h0 (by simp), hrles, hout]]
      exact ho

/-- **C3** (amended).  Storage GET failures in `MergeLabels` (target or
source RLE reads) and range-delete failures on nonempty sources abort the
call with a non-nil error, as do dense GET failures on the split's listed
blocks in `SplitLabels`; but a failure of the final batch commit in either
call is only logged: with every other step healthy the call still returns
success (nil error). -/
theorem claim_C3_storage_error_propagation :
    (∀ (env : MergeEnv) (st : Store) (m : MergeOp), env.failGetTarget = true →
      (mergeLabels env st m).2.2.isSome = true) ∧
    (∀ (env : MergeEnv) (st : Store) (m : MergeOp) (b : Nat), b ∈ m.merged →
      env.failGetSource b = true → (mergeLabels env st m).2.2.isSome = true) ∧
    (∀ (env : MergeEnv) (st : Store) (m : MergeOp) (b : Nat), b ∈ m.merged →
      m.merged.Nodup → (∀ l, env.failGetSource l = false) →
      env.failDeleteRange b = true → 0 < labelSize st b →
      (mergeLabels env st m).2.2.isSome = true) ∧
    (∀ (env : MergeEnv) (st : Store) (m : MergeOp), env.failGetTarget = false →
      (∀ l, env.failGetSource l = false) → (∀ l, env.failDeleteRange l = false) →
      (mergeLabels env st m).2.2 = none) ∧
    (∀ (env : SplitEnv) (st : Store) (fromLabel toLabel : Nat)
        (splitmap : List (Nat × List RLE)) (b : Nat), b ∈ sortedKeys splitmap →
      env.failGet b = true →
      (splitLabels env st fromLabel toLabel splitmap).2.2.isSome = true) ∧
    (∀ (env : SplitEnv) (st : Store) (fromLabel toLabel : Nat)
        (splitmap : List (Nat × List RLE)),
      env.failNewLabel = false → env.failWriteVol = false →
      (∀ b, env.failGet b = false) → toLabel ≠ fromLabel →
      (∀ b ∈ sortedKeys splitmap, ∃ rles, lookupStore st (fromLabel, b) = some rles ∧
        ∃ out, diffRLEs ((blkLookup splitmap b).getD []) rles = .ok out) →
      (splitLabels env st fromLabel toLabel splitmap).2.2 = none) := by
  refine ⟨?_, ?_, ?_, ?_, ?_, ?_⟩
  · intro env st m hgt
    simp [mergeLabels, hgt]
  · intro env st m b hb hfb
    cases hgt : env.failGetTarget with
    | true => simp [mergeLabels, hgt]
    | false =>
      obtain ⟨p, hp⟩ := mergeLoop_error_of_getsource env m.merged
        ⟨st, [], [], getLabelRLEs st m.target, 0⟩ b hb hfb
      obtain ⟨st', tr, e⟩ := p
      simp [mergeLabels, hgt, hp]
  · intro env st m b hb hnd hgs hdb hsize
    cases hgt : env.failGetTarget with
    | true => simp [mergeLabels, hgt]
    | false =>
      obtain ⟨p, hp⟩ := mergeLoop_error_of_deleterange env m.merged
        ⟨st, [], [], getLabelRLEs st m.target, 0⟩ b hb hnd hgs hdb hsize
      obtain ⟨st', tr, e⟩ := p
      simp [mergeLabels, hgt, hp]
  · intro env st m hgt hgs hdr
    obtain ⟨s', hs'⟩ := mergeLoop_ok_of_no_failures env m.merged
      ⟨st, [], [], getLabelRLEs st m.target, 0⟩ (fun l _ => hgs l) (fun l _ => hdr l)
    by_cases hbc : s'.blocksChanged = []
    · simp [mergeLabels, hgt, hs', hbc]
    · simp [mergeLabels, hgt, hs', hbc]
  · intro env st fromLabel toLabel splitmap b hb hfb
    cases hnl : env.failNewLabel with
    | true => simp [splitLabels, hnl]
    | false =>
      cases hwv : env.failWriteVol with
      | true => simp [splitLabels, hnl, hwv]
      | false =>
        obtain ⟨e, he⟩ := splitLoop_error_of_getfail env
          (applyPuts st ((sortedKeys splitmap).map
            (fun blk => ((toLabel, blk), (blkLookup splitmap blk).getD []))))
          fromLabel splitmap (sortedKeys splitmap) [] [] b hb hfb
        simp only [splitLabels, hnl, hwv, Bool.false_eq_true, if_false]
        rw [he]
        rfl
  · intro env st fromLabel toLabel splitmap hnl hwv hget htf hclean
    have hst1 : ∀ b : Nat,
        lookupStore (applyPuts st ((sortedKeys splitmap).map
          (fun blk => ((toLabel, blk), (blkLookup splitmap blk).getD []))))
          (fromLabel, b) = lookupStore st (fromLabel, b) := by
      intro b
      apply lookupStore_applyPuts_ne
      intro p hp
      obtain ⟨blk', _, rfl⟩ := List.mem_map.mp hp
      intro hc
      exact htf (congrArg Prod.fst hc)
    obtain ⟨out, ho⟩ := splitLoop_ok_of_clean env
      (applyPuts st ((sortedKeys splitmap).map
        (fun blk => ((toLabel, blk), (blkLookup splitmap blk).getD []))))
      fromLabel splitmap (sortedKeys splitmap) [] [] (fun b _ => hget b)
      (by
        intro b hb
        obtain ⟨rles, hrles, hout⟩ := hclean b hb
        exact ⟨rles, by rw [hst1 b]; exact hrles, hout⟩)
    obtain ⟨puts, dels⟩ := out
    simp only [splitLabels, hnl, hwv, Bool.false_eq_true, if_false]
    rw [ho]

/-- **C3** (counterexample to the claim as stated): a failure of the final
batch commit of `MergeLabels` is only logged (merge_split.go lines
154-156): merging nonempty label 1 into 9 with a failing commit still
returns nil.  The trace shows the commit was attempted, yet the store shows
the target's update was not persisted (the sources were already
range-deleted), so the storage failure was swallowed, not returned. -/
theorem claim_C3_counterexample :
    (mergeLabels ⟨false, fun _ => false, fun _ => false, true⟩
      [((1, 0), [⟨0, 5⟩])] ⟨9, [1]⟩).2.2 = none ∧
    Action.actCommit [((9, 0), [⟨0, 5⟩])] [] ∈
      (mergeLabels ⟨false, fun _ => false, fun _ => false, true⟩
        [((1, 0), [⟨0, 5⟩])] ⟨9, [1]⟩).2.1 ∧
    (mergeLabels ⟨false, fun _ => false, fun _ => false, true⟩
      [((1, 0), [⟨0, 5⟩])] ⟨9, [1]⟩).1 = [] := by
  refine ⟨rfl, ?_, rfl⟩
  decide

/-- Witness for C3 (amended), exercising the target-GET conjunct at a
concrete input. -/
theorem claim_C3_witness :
    (mergeLabels ⟨true, fun _ => false, fun _ => false, false⟩ [] ⟨9, []⟩).2.2.isSome
      = true :=
  claim_C3_storage_error_propagation.1
    ⟨true, fun _ => false, fun _ => false, false⟩ [] ⟨9, []⟩ rfl

/-! ## C6: ordering of lifecycle events and durable writes in one call -/

/-- `p`-entries occur strictly before `q`-entries in the trace. -/
def precedes (p q : Action → Prop) (tr : List Action) : Prop :=
  ∀ (i j : Fin tr.length), p (tr.get i) → q (tr.get j) → (i : Nat) < (j : Nat)

theorem precedes_of_split {p q : Action → Prop} (A B : List Action)
    (hpB : ∀ x ∈ B, ¬ p x) (hqA : ∀ x ∈ A, ¬ q x) :
    precedes p q (A ++ B) := by
  intro i j hp hq
  rw [List.get_eq_getElem] at hp hq
  have hlen : (A ++ B).length = A.length + B.length := List.length_append A B
  have hiA : (i : Nat) < A.length := by
    by_contra hc
    push_neg at hc
    rw [List.getElem_append_right hc] at hp
    exact hpB _ (List.getElem_mem _) hp
  have hjB : ¬ (j : Nat) < A.length := by
    intro hc
    rw [List.getElem_append_left hc] at hq
    exact hqA _ (List.getElem_mem _) hq
  omega

theorem precedes_of_no_q {p q : Action → Prop} (tr : List Action)
    (h : ∀ x ∈ tr, ¬ q x) : precedes p q tr := by
  intro i j _ hq
  rw [List.get_eq_getElem] at hq
  exact absurd hq (h _ (List.getElem_mem _))

def Action.isMergeStart : Action → Prop
  | .evMergeStart _ => True
  | _ => False

def Action.isMergeBlock : Action → Prop
  | .evMergeBlock _ _ => True
  | _ => False

def Action.isMergeEnd : Action → Prop
  | .evMergeEnd _ => True
  | _ => False

def Action.isSplitStart : Action → Prop
  | .evSplitStart _ _ => True
  | _ => False

def Action.isSplitLabel : Action → Prop
  | .evSplitLabel _ _ _ _ => True
  | _ => False

def Action.isSplitEnd : Action → Prop
  | .evSplitEnd _ _ => True
  | _ => False

/-- Durable storage writes: range deletes, the new-label volume write, and
batch commits. -/
def Action.isWrite : Action → Prop
  | .actDeleteRange _ => True
  | .actWriteVol _ _ => True
  | .actCommit _ _ => True
  | _ => False

/-- Entries that the MergeLabels source loop can emit. -/
def Action.isLoopEntry : Action → Prop
  | .evDeleteSize _ _ => True
  | .actDeleteRange _ => True
  | _ => False

theorem loopEntry_not_lifecycle {x : Action} (h : Action.isLoopEntry x) :
    ¬ Action.isMergeStart x ∧ ¬ Action.isMergeBlock x ∧ ¬ Action.isMergeEnd x := by
  cases x <;>
    simp [Action.isLoopEntry, Action.isMergeStart, Action.isMergeBlock,
      Action.isMergeEnd] at h ⊢

/-- The trace carried by a source-loop outcome. -/
def mergeResultTrace :
    Except (Store × List Action × MergeErr) MergeLoopState → List Action
  | .error (_, tr, _) => tr
  | .ok s => s.trace

/-- The source loop only ever appends size-delete events and range-delete
actions to the trace. -/
theorem mergeLoop_trace_shape (env : MergeEnv) :
    ∀ (ls : List Nat) (s : MergeLoopState),
    (∀ x ∈ s.trace, Action.isLoopEntry x) →
    ∀ x ∈ mergeResultTrace (mergeLoop env ls s), Action.isLoopEntry x := by
  intro ls
  induction ls with
  | nil =>
    intro s h
    exact h
  | cons l ls ih =>
    intro s hs
    cases hgs : env.failGetSource l with
    | true =>
      rw [show mergeLoop env (l :: ls) s = .error (s.store, s.trace, .getSource l)
        from by simp [mergeLoop, hgs]]
      exact hs
    | false =>
      by_cases hskip : blocksVoxels (getLabelRLEs s.store l) = 0 ∨
          getLabelRLEs s.store l = []
      · rw [show mergeLoop env (l :: ls) s = mergeLoop env ls s from by
          simp [mergeLoop, hgs, hskip]]
        exact ih s hs
      · cases hdr : env.failDeleteRange l with
        | true =>
          rw [show mergeLoop env (l :: ls) s = .error (s.store,
            s.trace ++ [.evDeleteSize l (blocksVoxels (getLabelRLEs s.store l))],
            .deleteRange l) from by simp [mergeLoop, hgs, hskip, hdr]]
          intro x hx
          rcases List.mem_append.mp hx with h | h
          · exact hs x h
          · rcases List.mem_singleton.mp h with rfl
            trivial
        | false =>
          rw [show mergeLoop env (l :: ls) s =
              mergeLoop env ls ⟨deleteLabel s.store l,
                (s.trace ++ [.evDeleteSize l (blocksVoxels (getLabelRLEs s.store l))]) ++
                  [.actDeleteRange l],
                (absorbBlocks s.blocksChanged s.toRLEs (getLabelRLEs s.store l)).1,
                (absorbBlocks s.blocksChanged s.toRLEs (getLabelRLEs s.store l)).2,
                s.addedVoxels + blocksVoxels (getLabelRLEs s.store l)⟩
            from by simp [mergeLoop, hgs, hskip, hdr]]
          apply ih
          intro x hx
          rcases List.mem_append.mp hx with h | h
          · rcases List.mem_append.mp h with h | h
            · exact hs x h
            · rcases List.mem_singleton.mp h with rfl
              trivial
          · rcases List.mem_singleton.mp h with rfl
            trivial

/-- Every MergeLabels trace is the start event followed by loop entries,
optionally closed by the block event, the batch commit, the size-change
event, and the end event, in that order. -/
theorem mergeLabels_trace_cases (env : MergeEnv) (st : Store) (m : MergeOp) :
    (∃ ltr, (∀ x ∈ ltr, Action.isLoopEntry x) ∧
      (mergeLabels env st m).2.1 = [Action.evMergeStart m] ++ ltr) ∨
    (∃ ltr bc puts S add, (∀ x ∈ ltr, Action.isLoopEntry x) ∧
      (mergeLabels env st m).2.1 = [Action.evMergeStart m] ++ ltr ++
        [.evMergeBlock m bc, .actCommit puts [],
         .evReplaceSize m.target S (S + add), .evMergeEnd m]) := by
  cases hgt : env.failGetTarget with
  | true => exact Or.inl ⟨[], by simp, by simp [mergeLabels, hgt]⟩
  | false =>
    have hshape := mergeLoop_trace_shape env m.merged
      ⟨st, [], [], getLabelRLEs st m.target, 0⟩ (by simp)
    cases hml : mergeLoop env m.merged ⟨st, [], [], getLabelRLEs st m.target, 0⟩ with
    | error p =>
      obtain ⟨st', tr, e⟩ := p
      rw [hml] at hshape
      exact Or.inl ⟨tr, hshape, by simp [mergeLabels, hgt, hml]⟩
    | ok s =>
      rw [hml] at hshape
      by_cases hbc : s.blocksChanged = []
      · exact Or.inl ⟨s.trace, hshape, by simp [mergeLabels, hgt, hml, hbc]⟩
      · exact Or.inr ⟨s.trace, s.blocksChanged,
          s.blocksChanged.map
            (fun blk => ((m.target, blk), (blkLookup s.toRLEs blk).getD [])),
          blocksVoxels (getLabelRLEs st m.target), s.addedVoxels, hshape,
          by simp [mergeLabels, hgt, hml, hbc]⟩

/-- The four possible SplitLabels traces, in program order. -/
theorem splitLabels_trace_cases (env : SplitEnv) (st : Store)
    (fromLabel toLabel : Nat) (splitmap : List (Nat × List RLE)) :
    (splitLabels env st fromLabel toLabel splitmap).2.1 = [] ∨
    (splitLabels env st fromLabel toLabel splitmap).2.1 =
      [.evSplitStart fromLabel toLabel,
       .evSplitLabel fromLabel toLabel splitmap (sortedKeys splitmap)] ∨
    (splitLabels env st fromLabel toLabel splitmap).2.1 =
      [.evSplitStart fromLabel toLabel,
       .evSplitLabel fromLabel toLabel splitmap (sortedKeys splitmap),
       .actWriteVol toLabel (sortedKeys splitmap)] ∨
    (∃ puts dels, (splitLabels env st fromLabel toLabel splitmap).2.1 =
      [.evSplitStart fromLabel toLabel,
       .evSplitLabel fromLabel toLabel splitmap (sortedKeys splitmap),
       .actWriteVol toLabel (sortedKeys splitmap),
       .actCommit puts dels, .evNewSize toLabel (blocksVoxels splitmap),
       .evModSize fromLabel (blocksVoxels splitmap),
       .evSplitEnd fromLabel toLabel]) := by
  cases hnl : env.failNewLabel with
  | true => exact Or.inl (by simp [splitLabels, hnl])
  | false =>
    cases hwv : env.failWriteVol with
    | true => exact Or.inr (Or.inl (by simp [splitLabels, hnl, hwv]))
    | false =>
      cases hsl : splitLoop env
          (applyPuts st ((sortedKeys splitmap).map
            (fun blk => ((toLabel, blk), (blkLookup splitmap blk).getD []))))
          fromLabel splitmap (sortedKeys splitmap) [] [] with
      | error e =>
        refine Or.inr (Or.inr (Or.inl ?_))
        simp only [splitLabels, hnl, hwv, Bool.false_eq_true, if_false]
        rw [hsl]
        rfl
      | ok out =>
        obtain ⟨puts, dels⟩ := out
        refine Or.inr (Or.inr (Or.inr ⟨puts, dels, ?_⟩))
        simp only [splitLabels, hnl, hwv, Bool.false_eq_true, if_false]
        rw [hsl]
        rfl

/-- **C6**.  For every merge, the MergeStart event is published before the
MergeBlock event, which precedes the MergeEnd event; for every split, the
SplitStart event precedes the SplitLabel event carrying the full per-block
partition, which precedes the SplitEnd event and also precedes every
durable storage write of the call — in particular the batch that rewrites
the source label's original blocks. -/
theorem claim_C6_event_order (env : MergeEnv) (st : Store) (m : MergeOp)
    (senv : SplitEnv) (st2 : Store) (fromLabel toLabel : Nat)
    (splitmap : List (Nat × List RLE)) :
    (precedes Action.isMergeStart Action.isMergeBlock (mergeLabels env st m).2.1 ∧
     precedes Action.isMergeBlock Action.isMergeEnd (mergeLabels env st m).2.1) ∧
    (precedes Action.isSplitStart Action.isSplitLabel
        (splitLabels senv st2 fromLabel toLabel splitmap).2.1 ∧
     precedes Action.isSplitLabel Action.isSplitEnd
        (splitLabels senv st2 fromLabel toLabel splitmap).2.1 ∧
     precedes Action.isSplitLabel Action.isWrite
        (splitLabels senv st2 fromLabel toLabel splitmap).2.1) := by
  constructor
  · rcases mergeLabels_trace_cases env st m with
      ⟨ltr, hl, heq⟩ | ⟨ltr, bc, puts, S, add, hl, heq⟩
    · rw [heq]
      constructor
      · apply precedes_of_no_q
        intro x hx
        rcases List.mem_append.mp hx with h | h
        · rcases List.mem_singleton.mp h with rfl
          simp [Action.isMergeBlock]
        · exact (loopEntry_not_lifecycle (hl x h)).2.1
      · apply precedes_of_no_q
        intro x hx
        rcases List.mem_append.mp hx with h | h
        · rcases List.mem_singleton.mp h with rfl
          simp [Action.isMergeEnd]
        · exact (loopEntry_not_lifecycle (hl x h)).2.2
    · rw [heq]
      constructor
      · rw [List.append_assoc]
        apply precedes_of_split
        · intro x hx
          rcases List.mem_append.mp hx with h | h
          · exact (loopEntry_not_lifecycle (hl x h)).1
          · simp only [List.mem_cons, List.not_mem_nil, or_false] at h
            rcases h with rfl | rfl | rfl | rfl
            · simp [Action.isMergeStart]
            · simp [Action.isMergeStart]
            · simp [Action.isMergeStart]
            · simp [Action.isMergeStart]
        · intro x hx
          rcases List.mem_singleton.mp hx with rfl
          simp [Action.isMergeBlock]
      · have hre : [Action.evMergeStart m] ++ ltr ++
            [Action.evMergeBlock m bc, Action.actCommit puts [],
             Action.evReplaceSize m.target S (S + add), Action.evMergeEnd m] =
            ([Action.evMergeStart m] ++ ltr ++
             [Action.evMergeBlock m bc, Action.actCommit puts [],
              Action.evReplaceSize m.target S (S + add)]) ++
            [Action.evMergeEnd m] := by
          simp
        rw [hre]
        apply precedes_of_split
        · intro x hx
          rcases List.mem_singleton.mp hx with rfl
          simp [Action.isMergeBlock]
        · intro x hx
          rcases List.mem_append.mp hx with h | h
          · rcases List.mem_append.mp h with h | h
            · rcases List.mem_singleton.mp h with rfl
              simp [Action.isMergeEnd]
            · exact (loopEntry_not_lifecycle (hl x h)).2.2
          · simp only [List.mem_cons, List.not_mem_nil, or_false] at h
            rcases h with rfl | rfl | rfl
            · simp [Action.isMergeEnd]
            · simp [Action.isMergeEnd]
            · simp [Action.isMergeEnd]
  · rcases splitLabels_trace_cases senv st2 fromLabel toLabel splitmap with
      heq | heq | heq | ⟨puts, dels, heq⟩ <;> rw [heq]
    · exact ⟨precedes_of_no_q _ (by simp), precedes_of_no_q _ (by simp),
        precedes_of_no_q _ (by simp)⟩
    · refine ⟨?_, precedes_of_no_q _ (by simp [Action.isSplitEnd]),
        precedes_of_no_q _ (by simp [Action.isWrite])⟩
      exact precedes_of_split [.evSplitStart fromLabel toLabel]
        [.evSplitLabel fromLabel toLabel splitmap (sortedKeys splitmap)]
        (by simp [Action.isSplitStart]) (by simp [Action.isSplitLabel])
    · refine ⟨?_, precedes_of_no_q _ (by simp [Action.isSplitEnd]), ?_⟩
      · exact precedes_of_split [.evSplitStart fromLabel toLabel]
          [.evSplitLabel fromLabel toLabel splitmap (sortedKeys splitmap),
           .actWriteVol toLabel (sortedKeys splitmap)]
          (by simp [Action.isSplitStart]) (by simp [Action.isSplitLabel])
      · exact precedes_of_split
          [.evSplitStart fromLabel toLabel,
           .evSplitLabel fromLabel toLabel splitmap (sortedKeys splitmap)]
          [.actWriteVol toLabel (sortedKeys splitmap)]
          (by simp [Action.isSplitLabel]) (by simp [Action.isWrite])
    · refine ⟨?_, ?_, ?_⟩
      · exact precedes_of_split [.evSplitStart fromLabel toLabel]
          [.evSplitLabel fromLabel toLabel splitmap (sortedKeys splitmap),
           .actWriteVol toLabel (sortedKeys splitmap),
           .actCommit puts dels, .evNewSize toLabel (blocksVoxels splitmap),
           .evModSize fromLabel (blocksVoxels splitmap),
           .evSplitEnd fromLabel toLabel]
          (by simp [Action.isSplitStart]) (by simp [Action.isSplitLabel])
      · exact precedes_of_split
          [.evSplitStart fromLabel toLabel,
           .evSplitLabel fromLabel toLabel splitmap (sortedKeys splitmap),
           .actWriteVol toLabel (sortedKeys splitmap),
           .actCommit puts dels, .evNewSize toLabel (blocksVoxels splitmap),
           .evModSize fromLabel (blocksVoxels splitmap)]
          [.evSplitEnd fromLabel toLabel]
          (by simp [Action.isSplitLabel]) (by simp [Action.isSplitEnd])
      · exact precedes_of_split
          [.evSplitStart fromLabel toLabel,
           .evSplitLabel fromLabel toLabel splitmap (sortedKeys splitmap)]
          [.actWriteVol toLabel (sortedKeys splitmap),
           .actCommit puts dels, .evNewSize toLabel (blocksVoxels splitmap),
           .evModSize fromLabel (blocksVoxels splitmap),
           .evSplitEnd fromLabel toLabel]
          (by simp [Action.isSplitLabel]) (by simp [Action.isWrite])

/-! ## labelblk sync propagation: dense-block relabeling (sync.go) -/

/-- `binary.LittleEndian.Uint64` on the first 8 bytes of a cell: least
significant byte first. -/
def leUint64 (bs : List Nat) : Nat :=
  (bs.take 8).foldr (fun b acc => b + 256 * acc) 0

/-- `binary.LittleEndian.PutUint64`: the eight little-endian bytes of a
uint64 value (bits beyond 64 are dropped, as by Go's uint64). -/
def putLeUint64 (v : Nat) : List Nat :=
  [v % 256, v / 256 % 256, v / 256 ^ 2 % 256, v / 256 ^ 3 % 256,
   v / 256 ^ 4 % 256, v / 256 ^ 5 % 256, v / 256 ^ 6 % 256, v / 256 ^ 7 % 256]

/-- The relabel loop of `mergeBlock` (sync.go lines 212-218): scan the
deserialized block in 8-byte cells; every cell whose label value belongs to
the merged set is overwritten with the target label, all other cells are
left untouched. -/
def mergeRelabel (merged : List Nat) (target : Nat) : List Nat → List Nat
  | b0 :: b1 :: b2 :: b3 :: b4 :: b5 :: b6 :: b7 :: rest =>
    (if leUint64 (b0 :: b1 :: b2 :: b3 :: b4 :: b5 :: b6 :: b7 :: rest) ∈ merged then
      putLeUint64 target
     else [b0, b1, b2, b3, b4, b5, b6, b7]) ++
      mergeRelabel merged target rest
  | short => short

/-- Unfolding of one loop iteration on a block with at least one full cell. -/
theorem mergeRelabel_step (merged : List Nat) (target : Nat) :
    ∀ (data : List Nat), 8 ≤ data.length →
    mergeRelabel merged target data =
      (if leUint64 data ∈ merged then putLeUint64 target else data.take 8) ++
        mergeRelabel merged target (data.drop 8)
  | [], h => absurd h (by simp)
  | [_], h => absurd h (by simp)
  | [_, _], h => absurd h (by simp)
  | [_, _, _], h => absurd h (by simp)
  | [_, _, _, _], h => absurd h (by simp)
  | [_, _, _, _, _], h => absurd h (by simp)
  | [_, _, _, _, _, _], h => absurd h (by simp)
  | [_, _, _, _, _, _, _], h => absurd h (by simp)
  | _ :: _ :: _ :: _ :: _ :: _ :: _ :: _ :: _, _ => rfl

/-- The `j`-th 8-byte cell of a block. -/
def cell (j : Nat) (d : List Nat) : List Nat := (d.drop (8 * j)).take 8

example :
    mergeRelabel [7] 5 (putLeUint64 7 ++ putLeUint64 9) =
      putLeUint64 5 ++ putLeUint64 9 := by decide

/-- Relabeling never changes the byte length of a block. -/
theorem mergeRelabel_length (merged : List Nat) (target : Nat) :
    ∀ data : List Nat, (mergeRelabel merged target data).length = data.length
  | [] => rfl
  | [_] => rfl
  | [_, _] => rfl
  | [_, _, _] => rfl
  | [_, _, _, _] => rfl
  | [_, _, _, _, _] => rfl
  | [_, _, _, _, _, _] => rfl
  | [_, _, _, _, _, _, _] => rfl
  | b0 :: b1 :: b2 :: b3 :: b4 :: b5 :: b6 :: b7 :: rest => by
    have ih := mergeRelabel_length merged target rest
    simp only [mergeRelabel]
    by_cases hm :
        leUint64 (b0 :: b1 :: b2 :: b3 :: b4 :: b5 :: b6 :: b7 :: rest) ∈ merged
    · simp [hm, putLeUint64, ih]
    · simp [hm, ih]

theorem cell_succ_of_eight {C R : List Nat} (h : C.length = 8) (j : Nat) :
    cell (j + 1) (C ++ R) = cell j R := by
  unfold cell
  rw [show 8 * (j + 1) = 8 + 8 * j from by ring]
  rw [← List.drop_drop, List.drop_left' h]

theorem cell_succ_drop (d : List Nat) (j : Nat) :
    cell (j + 1) d = cell j (d.drop 8) := by
  unfold cell
  rw [show 8 * (j + 1) = 8 + 8 * j from by ring]
  rw [← List.drop_drop]

/-- Failure injection for one dense-block merge task, one flag per failing
call of sync.go lines 186-231. -/
structure BlockEnv where
  getFails : Bool
  deserializeFails : Bool
  serializeFails : Bool
  putFails : Bool

/-- The exit taken by one `mergeBlock` loop iteration. -/
inductive TaskOutcome
  | getFailed
  | missingBlock
  | deserializeFailed
  | badLength
  | serializeFailed
  | putFailed
  | written (data : List Nat)
deriving DecidableEq, Repr

/-- One iteration of `mergeBlock`'s task loop (sync.go lines 186-231): read
the dense block (GET failure and nil block abort the task), deserialize it
(failure and wrong byte length abort), relabel the merged cells to the
target, re-serialize and PUT (failures abort, a PUT failure after the
relabel leaves the block unwritten).  The second component counts the
`op.wg.Done()` signals made on the taken path. -/
def mergeBlockTask (env : BlockEnv) (blockBytes : Nat) (stored : Option (List Nat))
    (merged : List Nat) (target : Nat) : TaskOutcome × Nat :=
  if env.getFails then (.getFailed, 1)
  else match stored with
    | none => (.missingBlock, 1)
    | some data =>
      if env.deserializeFails then (.deserializeFailed, 1)
      else if data.length ≠ blockBytes then (.badLength, 1)
      else if env.serializeFails then (.serializeFailed, 1)
      else if env.putFails then (.putFailed, 1)
      else (.written (mergeRelabel merged target data), 1)

/-- The per-merge barrier of `syncMerge` (sync.go lines 150-161): one
`wg.Add(1)` per changed block before dispatch; the MergeOp is evicted from
the merge cache when the waits balance, i.e. when the total `Done` count
reaches this number. -/
def syncMergeAdds (blocks : List Nat) : Nat := blocks.length

/-- Total `Done` signals over a worker's dispatched tasks.  A worker whose
dense store fails to initialise returns before consuming any task
(sync.go lines 179-183), hence the `initOk` guard. -/
def workerDones (initOk : Bool) (blockBytes : Nat)
    (tasks : List (BlockEnv × Option (List Nat))) (merged : List Nat)
    (target : Nat) : Nat :=
  if initOk then
    (tasks.map (fun t => (mergeBlockTask t.1 blockBytes t.2 merged target).2)).sum
  else 0

theorem mergeBlockTask_done_once (env : BlockEnv) (blockBytes : Nat)
    (stored : Option (List Nat)) (merged : List Nat) (target : Nat) :
    (mergeBlockTask env blockBytes stored merged target).2 = 1 := by
  unfold mergeBlockTask
  repeat' split
  all_goals rfl

/-- **C8**.  For every dense block processed by a merge-propagation worker,
the rewritten block is the original with exactly those 8-byte little-endian
cells whose value is in the MergeOp's merged set replaced by the target
label, all other cells byte-for-byte unchanged; and on the healthy path the
worker re-persists exactly that relabeled block, e.g. after merging 7 into
5 the cells that read 7 now read 5. -/
theorem claim_C8_worker_relabels_cells (merged : List Nat) (target : Nat) :
    ∀ (n : Nat) (data : List Nat), data.length = 8 * n →
    (mergeRelabel merged target data).length = data.length ∧
    (∀ j, j < n → cell j (mergeRelabel merged target data) =
      (if leUint64 (cell j data) ∈ merged then putLeUint64 target
       else cell j data)) ∧
    mergeBlockTask ⟨false, false, false, false⟩ data.length (some data)
      merged target = (.written (mergeRelabel merged target data), 1) := by
  intro n
  induction n with
  | zero =>
    intro data hlen
    exact ⟨mergeRelabel_length merged target data, fun j hj => absurd hj (by omega),
      by simp [mergeBlockTask]⟩
  | succ n ih =>
    intro data hlen
    have h8 : 8 ≤ data.length := by omega
    refine ⟨mergeRelabel_length merged target data, ?_,
      by simp [mergeBlockTask]⟩
    intro j hj
    rw [mergeRelabel_step merged target data h8]
    have hlen8 : (data.drop 8).length = 8 * n := by
      simp only [List.length_drop]
      omega
    obtain ⟨-, ihc, -⟩ := ih (data.drop 8) hlen8
    have hClen : (if leUint64 data ∈ merged then putLeUint64 target
        else data.take 8).length = 8 := by
      by_cases hm : leUint64 data ∈ merged
      · simp [hm, putLeUint64]
      · simp only [hm, if_false, List.length_take]
        omega
    cases j with
    | zero =>
      have hdec : leUint64 (cell 0 data) = leUint64 data := by
        simp [cell, leUint64, List.take_take]
      have hc0 : cell 0 data = data.take 8 := by
        simp [cell]
      rw [hdec, hc0]
      show cell 0 (_ ++ mergeRelabel merged target (data.drop 8)) = _
      unfold cell
      rw [Nat.mul_zero, List.drop_zero, List.take_left' hClen]
    | succ j =>
      rw [cell_succ_of_eight hClen j, cell_succ_drop data j]
      exact ihc j (by omega)

/-- Witness for C8 at the spec's example: a two-cell block reading (7, 9)
after merging 7 into 5 reads (5, 9), and the healthy worker persists it. -/
theorem claim_C8_witness :
    (mergeRelabel [7] 5 (putLeUint64 7 ++ putLeUint64 9)).length =
      (putLeUint64 7 ++ putLeUint64 9).length ∧
    (∀ j, j < 2 → cell j (mergeRelabel [7] 5 (putLeUint64 7 ++ putLeUint64 9)) =
      (if leUint64 (cell j (putLeUint64 7 ++ putLeUint64 9)) ∈ [7] then putLeUint64 5
       else cell j (putLeUint64 7 ++ putLeUint64 9))) ∧
    mergeBlockTask ⟨false, false, false, false⟩
      (putLeUint64 7 ++ putLeUint64 9).length (some (putLeUint64 7 ++ putLeUint64 9))
      [7] 5 = (.written (mergeRelabel [7] 5 (putLeUint64 7 ++ putLeUint64 9)), 1) :=
  claim_C8_worker_relabels_cells [7] 5 2 (putLeUint64 7 ++ putLeUint64 9) (by decide)

/-- **C10**.  Every mergeOp dispatched to a worker signals its completion
wait-group exactly once on every outcome path (GET failure, missing block,
deserialization failure, wrong byte length, serialization failure, PUT
failure, or success), so, assuming the dense store initialises, a worker's
total `Done` count equals the number of tasks it was handed: the per-merge
barrier of `syncMerge` reaches zero and the MergeOp is removed from the
merge cache even when some block tasks fail. -/
theorem claim_C10_barrier_balanced :
    (∀ (env : BlockEnv) (blockBytes : Nat) (stored : Option (List Nat))
      (merged : List Nat) (target : Nat),
      (mergeBlockTask env blockBytes stored merged target).2 = 1) ∧
    (∀ (blockBytes : Nat) (tasks : List (BlockEnv × Option (List Nat)))
      (merged : List Nat) (target : Nat),
      workerDones true blockBytes tasks merged target = syncMergeAdds (tasks.map (fun _ => 0))) := by
  refine ⟨mergeBlockTask_done_once, ?_⟩
  intro blockBytes tasks merged target
  unfold workerDones syncMergeAdds
  simp only [if_true, List.length_map]
  induction tasks with
  | nil => rfl
  | cons t ts ih =>
    simp only [List.map_cons, List.sum_cons, List.length_cons,
      mergeBlockTask_done_once t.1 blockBytes t.2 merged target]
    rw [ih]
    omega

/-- Witness for C9: splitting block 0 of label 7 when the store has no
entry for (7, 0) returns the not-owned error. -/
theorem claim_C9_witness :
    (splitLabels ⟨false, false, fun _ => false, false⟩ [] 7 8
      [(0, [⟨0, 3⟩])]).2.2 = some (.notOwned 0) :=
  claim_C9_split_unowned_block ⟨false, false, fun _ => false, false⟩ [] 7 8
    [(0, [⟨0, 3⟩])] rfl rfl (fun _ => rfl) (by decide) [] 0 [] rfl rfl
    (by simp)

end DvidProof
